import Mathlib

/-!
Verification development for the ChromaKnit repository (src/core):
`utils.py`, `garment_recolor.py`, `yarn_color_extractor.py`.

Shallow embedding conventions:
* uint8 channel values are modelled as `Nat` (validity `≤ 255` is carried as a
  hypothesis where a claim needs it);
* images are flattened pixel lists in row-major order (`numpy` boolean-mask
  indexing and `np.where` both enumerate pixels in row-major order, so the
  positional correspondence used by `_apply_hsv_recoloring` is preserved);
* floating-point intermediates of the source hold integer channel values
  exactly (uint8 data cast to float32 and back), so they are modelled by exact
  integer arithmetic; the one genuinely fractional computation
  (`_get_color_mapping`) is modelled by exact rational arithmetic expressed as
  integer truncated division;
* `cv2.cvtColor` for `COLOR_BGR2HSV` / `COLOR_HSV2BGR` on 8-bit data is an
  external collaborator; it is modelled by OpenCV's documented 8-bit algorithm
  (V = max, S = round(255*(V-min)/V), H in [0,180) with round-to-nearest,
  and the standard six-sector reconstruction with saturate-cast rounding);
* fallible stages return `Bool × State` exactly as the Python methods return
  `bool` while mutating `self`; a Python `raise` is modelled by
  `StageOutcome.raised`.
-/

namespace ChromaKnit

/-- Round-to-nearest of the fraction `n / d` (for `d > 0`), modelling OpenCV
`cvRound`/`saturate_cast` rounding of a nonnegative-denominator ratio
(ties rounded up). -/
def roundDiv (n d : ℤ) : ℤ := (2 * n + d) / (2 * d)

/-- `saturate_cast<uchar>`: clamp an integer into `[0, 255]`. -/
def satCastU8 (z : ℤ) : ℕ := (max 0 (min 255 z)).toNat

/-- A BGR pixel (OpenCV channel order). -/
structure BGR where
  b : ℕ
  g : ℕ
  r : ℕ
deriving DecidableEq, Repr

/-- An HSV pixel, 8-bit OpenCV ranges: `h ∈ [0,180)`, `s, v ∈ [0,255]`. -/
structure HSV where
  h : ℕ
  s : ℕ
  v : ℕ
deriving DecidableEq, Repr

/-- The HSV value (brightness) channel of a BGR pixel: the channel maximum. -/
def valueOf (p : BGR) : ℕ := max p.b (max p.g p.r)

/-- Model of `cv2.cvtColor(..., cv2.COLOR_BGR2HSV)` on one 8-bit pixel
(OpenCV documented algorithm: `V = max`, `S = round(255*(V-min)/V)`,
`H = round(half-degrees)`, branch priority `r`, then `g`, then `b`). -/
def bgr2hsvPix (p : BGR) : HSV :=
  let v : ℕ := valueOf p
  let mn : ℕ := min p.b (min p.g p.r)
  let diff : ℕ := v - mn
  let s : ℕ := if v = 0 then 0 else (roundDiv (255 * (diff : ℤ)) (v : ℤ)).toNat
  let h : ℕ :=
    if diff = 0 then 0
    else
      let hr : ℤ :=
        if v = p.r then roundDiv (30 * ((p.g : ℤ) - (p.b : ℤ))) (diff : ℤ)
        else if v = p.g then 60 + roundDiv (30 * ((p.b : ℤ) - (p.r : ℤ))) (diff : ℤ)
        else 120 + roundDiv (30 * ((p.r : ℤ) - (p.g : ℤ))) (diff : ℤ)
      (if hr < 0 then hr + 180 else hr).toNat
  ⟨h, s, v⟩

/-- Hue sector for `COLOR_HSV2BGR` (8-bit hue is half-degrees, so the sector
is `h / 30`; out-of-range sectors reset to 0 as in OpenCV). -/
def hsvSector (h : ℕ) : ℕ := if 6 ≤ h / 30 then 0 else h / 30

/-- Thirtieths of the fractional sector position (`h mod 30`, reset to 0
together with the sector when out of range). -/
def hsvR30 (h : ℕ) : ℕ := if 6 ≤ h / 30 then 0 else h % 30

/-- Numerator of `255 * tab[i]` in OpenCV's HSV→BGR reconstruction, where
`tab[0]=v`, `tab[1]=v(1-s)`, `tab[2]=v(1-s·f)`, `tab[3]=v(1-s(1-f))`
with `f = r30/30`, everything put over the denominator `hsvCompDen i`. -/
def hsvCompNum (s v r30 : ℕ) : ℕ → ℤ
  | 0 => (v : ℤ)
  | 1 => (v : ℤ) * (255 - (s : ℤ))
  | 2 => (v : ℤ) * (7650 - (s : ℤ) * (r30 : ℤ))
  | _ => (v : ℤ) * (7650 - (s : ℤ) * (30 - (r30 : ℤ)))

/-- Denominator matching `hsvCompNum`. -/
def hsvCompDen : ℕ → ℤ
  | 0 => 1
  | 1 => 255
  | _ => 7650

/-- One output channel of HSV→BGR: rounded, saturate-cast `255 * tab[i]`. -/
def hsvComp (s v r30 : ℕ) (i : ℕ) : ℕ :=
  satCastU8 (roundDiv (hsvCompNum s v r30 i) (hsvCompDen i))

/-- Model of `cv2.cvtColor(..., cv2.COLOR_HSV2BGR)` on one 8-bit pixel:
the standard six-sector reconstruction (OpenCV `sector_data` table). -/
def hsv2bgrPix (c : HSV) : BGR :=
  let r30 := hsvR30 c.h
  match hsvSector c.h with
  | 0 => ⟨hsvComp c.s c.v r30 1, hsvComp c.s c.v r30 3, hsvComp c.s c.v r30 0⟩
  | 1 => ⟨hsvComp c.s c.v r30 1, hsvComp c.s c.v r30 0, hsvComp c.s c.v r30 2⟩
  | 2 => ⟨hsvComp c.s c.v r30 3, hsvComp c.s c.v r30 0, hsvComp c.s c.v r30 1⟩
  | 3 => ⟨hsvComp c.s c.v r30 0, hsvComp c.s c.v r30 2, hsvComp c.s c.v r30 1⟩
  | 4 => ⟨hsvComp c.s c.v r30 0, hsvComp c.s c.v r30 1, hsvComp c.s c.v r30 3⟩
  | _ => ⟨hsvComp c.s c.v r30 2, hsvComp c.s c.v r30 1, hsvComp c.s c.v r30 0⟩

/-! Basic facts about the rounding helpers and the two conversions. -/

theorem roundDiv_cast (v : ℤ) : roundDiv v 1 = v := by
  unfold roundDiv; omega

theorem roundDiv_le {n d : ℤ} (v : ℤ) (hd : 0 < d) (h : n ≤ v * d) :
    roundDiv n d ≤ v := by
  unfold roundDiv
  calc (2 * n + d) / (2 * d) ≤ (2 * (v * d) + d) / (2 * d) :=
        Int.ediv_le_ediv (by omega) (by omega)
    _ = (d * (2 * v + 1)) / (d * 2) := by ring_nf
    _ = (2 * v + 1) / 2 := Int.mul_ediv_mul_of_pos _ _ hd
    _ = v := by omega

theorem satCastU8_le {z : ℤ} {v : ℕ} (hz : z ≤ (v : ℤ)) (hv : v ≤ 255) :
    satCastU8 z ≤ v := by
  unfold satCastU8; omega

theorem satCastU8_cast {v : ℕ} (hv : v ≤ 255) : satCastU8 (v : ℤ) = v := by
  unfold satCastU8; omega

theorem hsvR30_le (h : ℕ) : hsvR30 h ≤ 30 := by
  unfold hsvR30; split <;> omega

theorem hsvComp_zero (s r30 v : ℕ) (hv : v ≤ 255) :
    hsvComp s v r30 0 = v := by
  unfold hsvComp hsvCompNum hsvCompDen
  rw [roundDiv_cast, satCastU8_cast hv]

theorem hsvComp_le (s v r30 : ℕ) (hs : s ≤ 255) (hr : r30 ≤ 30) (hv : v ≤ 255)
    (i : ℕ) : hsvComp s v r30 i ≤ v := by
  match i with
  | 0 => exact le_of_eq (hsvComp_zero s r30 v hv)
  | 1 =>
    refine satCastU8_le (roundDiv_le (v : ℤ) (by decide) ?_) hv
    show (v : ℤ) * (255 - (s : ℤ)) ≤ (v : ℤ) * 255
    have h1 : (255 - (s : ℤ)) ≤ 255 := by omega
    exact mul_le_mul_of_nonneg_left h1 (by positivity)
  | 2 =>
    refine satCastU8_le (roundDiv_le (v : ℤ) (by decide) ?_) hv
    show (v : ℤ) * (7650 - (s : ℤ) * (r30 : ℤ)) ≤ (v : ℤ) * 7650
    have h1 : (0 : ℤ) ≤ (s : ℤ) * (r30 : ℤ) := by positivity
    have h2 : (7650 - (s : ℤ) * (r30 : ℤ)) ≤ 7650 := by omega
    exact mul_le_mul_of_nonneg_left h2 (by positivity)
  | (n + 3) =>
    refine satCastU8_le (roundDiv_le (v : ℤ) (by simp [hsvCompDen]) ?_) hv
    show (v : ℤ) * (7650 - (s : ℤ) * (30 - (r30 : ℤ))) ≤ (v : ℤ) * 7650
    have h30 : (0 : ℤ) ≤ 30 - (r30 : ℤ) := by omega
    have h1 : (0 : ℤ) ≤ (s : ℤ) * (30 - (r30 : ℤ)) := by positivity
    have h2 : (7650 - (s : ℤ) * (30 - (r30 : ℤ))) ≤ 7650 := by omega
    exact mul_le_mul_of_nonneg_left h2 (by positivity)

/-- The HSV→BGR conversion reproduces the value channel exactly: the maximal
output channel equals `v`. -/
theorem hsv2bgr_valueOf (c : HSV) (hs : c.s ≤ 255) (hv : c.v ≤ 255) :
    valueOf (hsv2bgrPix c) = c.v := by
  have hr : hsvR30 c.h ≤ 30 := hsvR30_le c.h
  have h0 := hsvComp_zero c.s (hsvR30 c.h) c.v hv
  have h1 := hsvComp_le c.s c.v (hsvR30 c.h) hs hr hv 1
  have h2 := hsvComp_le c.s c.v (hsvR30 c.h) hs hr hv 2
  have h3 := hsvComp_le c.s c.v (hsvR30 c.h) hs hr hv 3
  unfold hsv2bgrPix
  rcases hsec : hsvSector c.h with _ | _ | _ | _ | _ | k <;>
    simp only [valueOf] <;> omega

theorem bgr2hsv_v (p : BGR) : (bgr2hsvPix p).v = valueOf p := rfl

theorem bgr2hsv_s_le (p : BGR) : (bgr2hsvPix p).s ≤ 255 := by
  show (if valueOf p = 0 then 0
    else (roundDiv (255 * ((valueOf p - min p.b (min p.g p.r) : ℕ) : ℤ))
      ((valueOf p : ℕ) : ℤ)).toNat) ≤ 255
  split
  · omega
  · rename_i hv
    have hpos : (0 : ℤ) < (valueOf p : ℤ) := by
      have : 0 < valueOf p := Nat.pos_of_ne_zero hv
      exact_mod_cast this
    have hle : (255 : ℤ) * ((valueOf p - min p.b (min p.g p.r) : ℕ) : ℤ) ≤
        255 * (valueOf p : ℤ) := by
      have : ((valueOf p - min p.b (min p.g p.r) : ℕ) : ℤ) ≤ (valueOf p : ℤ) := by
        have : valueOf p - min p.b (min p.g p.r) ≤ valueOf p := Nat.sub_le _ _
        exact_mod_cast this
      omega
    have hb : (255 : ℤ) * ((valueOf p - min p.b (min p.g p.r) : ℕ) : ℤ) ≤
        255 * (valueOf p : ℤ) := by omega
    have := roundDiv_le 255 hpos hb
    omega

theorem valueOf_le {p : BGR} (hb : p.b ≤ 255) (hg : p.g ≤ 255) (hr : p.r ≤ 255) :
    valueOf p ≤ 255 := by
  unfold valueOf; omega

/-! Model of `core/utils.py`. -/

/-- Case-insensitive hex digit table, modelling the digits accepted by
Python `int(x, 16)` for a single character. -/
def hexDigits : List (Char × ℕ) :=
  [('0', 0), ('1', 1), ('2', 2), ('3', 3), ('4', 4), ('5', 5), ('6', 6),
   ('7', 7), ('8', 8), ('9', 9), ('a', 10), ('b', 11), ('c', 12), ('d', 13),
   ('e', 14), ('f', 15), ('A', 10), ('B', 11), ('C', 12), ('D', 13),
   ('E', 14), ('F', 15)]

/-- Lookup in an association list (first match). -/
def hexLookup : List (Char × ℕ) → Char → Option ℕ
  | [], _ => none
  | (a, n) :: rest, c => if c = a then some n else hexLookup rest c

/-- Value of one hex digit character, `none` when the character is not a hex
digit (where Python `int(x, 16)` raises `ValueError`). -/
def hexDigitVal (c : Char) : Option ℕ := hexLookup hexDigits c

/-- Value of a two-character hex slice, as `int(s[i:i+2], 16)`. -/
def hexPairVal (c1 c2 : Char) : Option ℕ := do
  let x ← hexDigitVal c1
  let y ← hexDigitVal c2
  pure (16 * x + y)

/-- Model of `utils.hex_to_bgr`: strip leading `#` characters, parse three
two-digit hex slices as r, g, b and return the BGR tuple.  `none` models the
`ValueError` that Python raises on a non-hex or too-short string. -/
def hex_to_bgr (str : String) : Option BGR :=
  match str.data.dropWhile (· = '#') with
  | c1 :: c2 :: c3 :: c4 :: c5 :: c6 :: _ => do
      let r ← hexPairVal c1 c2
      let g ← hexPairVal c3 c4
      let b ← hexPairVal c5 c6
      pure ⟨b, g, r⟩
  | _ => none

/-- Lowercase hex digit character of `n < 16` (the `%x` format); values above
15 never arise from the byte split in `rgb_to_hex`. -/
def toHexChar : ℕ → Char
  | 0 => '0' | 1 => '1' | 2 => '2' | 3 => '3' | 4 => '4'
  | 5 => '5' | 6 => '6' | 7 => '7' | 8 => '8' | 9 => '9'
  | 10 => 'a' | 11 => 'b' | 12 => 'c' | 13 => 'd' | 14 => 'e' | 15 => 'f'
  | _ => '0'

/-- Two-digit lowercase hex rendering of a byte, as `%02x` for `n ≤ 255`. -/
def hexByte (n : ℕ) : List Char := [toHexChar (n / 16), toHexChar (n % 16)]

/-- Model of `utils.rgb_to_hex`: `'#%02x%02x%02x' % (r, g, b)`. -/
def rgb_to_hex (r g b : ℕ) : String :=
  ⟨'#' :: (hexByte r ++ hexByte g ++ hexByte b)⟩

/-- ASCII lowercasing of a string (Python `str.lower` on hex strings). -/
def strToLower (str : String) : String := ⟨str.data.map Char.toLower⟩

/-- The sixteen lowercase hex digit characters. -/
def lowerHexChars : List Char :=
  ['0', '1', '2', '3', '4', '5', '6', '7', '8', '9'] ++ ['a', 'b', 'c', 'd', 'e', 'f']

/-- A string shaped `#` followed by exactly six hex digits (any case). -/
def isHexInput (str : String) : Bool :=
  str.data.length == 7 && str.data.headD ' ' == '#' &&
    (str.data.drop 1).all (fun c => (hexDigitVal c).isSome)

/-- A string matching the output pattern `#[0-9a-f]{6}`. -/
def isHexOutput (str : String) : Bool :=
  str.data.length == 7 && str.data.headD ' ' == '#' &&
    (str.data.drop 1).all (fun c => lowerHexChars.contains c)

/-! Model of `core/garment_recolor.py` (class `GarmentRecolorer`).  Images are
row-major flattened pixel lists; the foreground mask is the alpha channel of
the segmenter output, a list of the same length. -/

/-- Mutable fields of a `GarmentRecolorer` instance. -/
structure RecolorerState where
  image : Option (List BGR)
  mask : Option (List ℕ)
  recolored_image : Option (List BGR)
  image_no_bg : Option (List (BGR × ℕ))
deriving DecidableEq

/-- State right after `__init__`: every buffer is `None`. -/
def initRecolorer : RecolorerState := ⟨none, none, none, none⟩

/-- Model of `GarmentRecolorer.load_image`; the external `cv2.imread` result
is the `loaded` parameter (`none` = unreadable image). -/
def load_image (loaded : Option (List BGR)) (st : RecolorerState) :
    Bool × RecolorerState :=
  (loaded.isSome, { st with image := loaded })

/-- Model of `GarmentRecolorer.remove_background`; the external `rembg.remove`
is the `seg` parameter returning 4-channel pixels (`none` = the library threw,
caught by the `except` branch). -/
def remove_background (seg : List BGR → Option (List (BGR × ℕ)))
    (st : RecolorerState) : Bool × RecolorerState :=
  match st.image with
  | none => (false, st)
  | some img =>
      match seg img with
      | none => (false, st)
      | some rgba =>
          (true, { st with image_no_bg := some rgba,
                           mask := some (rgba.map Prod.snd) })

/-- Stable ascending insertion by the value channel. -/
def insertByV (x : HSV) : List HSV → List HSV
  | [] => [x]
  | y :: ys => if x.v < y.v then x :: y :: ys else y :: insertByV x ys

/-- Stable sort ascending by the value channel, modelling Python
`sorted(hsv_colors, key=lambda x: x[2])`. -/
def sortByV (l : List HSV) : List HSV :=
  l.foldl (fun acc x => insertByV x acc) []

/-- Model of `GarmentRecolorer._hex_colors_to_hsv`: convert each hex code to
BGR then to HSV and sort ascending by brightness.  The `getD` default is never
reached on palettes of valid hex codes (the source would raise there). -/
def hex_colors_to_hsv (hexColors : List String) : List HSV :=
  sortByV (hexColors.map (fun c => bgr2hsvPix ((hex_to_bgr c).getD ⟨0, 0, 0⟩)))

/-- Minimum of a brightness list (`ndarray.min()`; the source guards the empty
case before calling this). -/
def listMin : List ℕ → ℕ
  | [] => 0
  | x :: xs => xs.foldl min x

/-- Maximum of a brightness list (`ndarray.max()`). -/
def listMax : List ℕ → ℕ
  | [] => 0
  | x :: xs => xs.foldl max x

/-! IEEE binary32 arithmetic, as far as `_get_color_mapping` exercises it.
The source computes `(brightness - min) / (max - min) * (num_colors - 1)` on
`float32` data; subtraction of small integers is exact, but the division and
the multiplication round to 24-bit significands, which shifts results that sit
exactly on an integer boundary.  The model below is exact round-to-nearest-even
binary32 (unbounded exponent; sub-normals and overflow never arise from the
values involved), represented as a significand/exponent pair `(m, e)` meaning
`m * 2 ^ e`. -/

/-- Round-half-to-even of `a / b` for `b > 0` (IEEE default rounding). -/
def rne (a b : ℕ) : ℕ :=
  if 2 * (a % b) < b then a / b
  else if b < 2 * (a % b) then a / b + 1
  else if (a / b) % 2 = 0 then a / b else a / b + 1

/-- Floor of the base-2 logarithm, by fuel (the fuel `n` always suffices). -/
def log2Aux : ℕ → ℕ → ℕ
  | 0, _ => 0
  | f + 1, n => if 2 ≤ n then log2Aux f (n / 2) + 1 else 0

/-- Floor of the base-2 logarithm of a positive natural (0 at 0). -/
def natLog2 (n : ℕ) : ℕ := log2Aux n n

/-- Correctly rounded binary32 quotient `p / q` (one single rounding of the
exact ratio, as IEEE float32 division): the exponent window is located via a
`2 ^ 60`-scaled floor logarithm and the 24-bit significand is rounded to
nearest/even from the exact remainder. -/
def fl32Ratio (p q : ℕ) : ℕ × ℤ :=
  if p = 0 then (0, 0)
  else
    let E : ℤ := (natLog2 (p * 2 ^ 60 / q) : ℤ) - 60
    let sh : ℤ := 23 - E
    let m := if 0 ≤ sh then rne (p * 2 ^ sh.toNat) q else rne p (q * 2 ^ (-sh).toNat)
    (m, E - 23)

/-- Correctly rounded binary32 product of a float value and a natural number
(the source multiplies `normalized` by the exact small integer
`num_colors - 1`): the exact integer product of significands is rounded back
to 24 bits when it exceeds them. -/
def fl32MulNat (t : ℕ × ℤ) (c : ℕ) : ℕ × ℤ :=
  if t.1 = 0 ∨ c = 0 then (0, 0)
  else
    let x := t.1 * c
    let L := natLog2 x
    if L ≤ 23 then (x, t.2)
    else (rne x (2 ^ (L - 23)), t.2 + ((L - 23 : ℕ) : ℤ))

/-- Truncation to integer of a nonnegative binary32 value (`astype(int)`). -/
def truncFl (t : ℕ × ℤ) : ℕ :=
  if 0 ≤ t.2 then t.1 * 2 ^ t.2.toNat else t.1 / 2 ^ (-t.2).toNat

/-- The per-pixel bucket index as the program computes it: float32 division by
the observed brightness span, float32 multiplication by `num_colors - 1`,
truncation toward zero.  `num_colors = 0` multiplies by the exact float -1,
so the result is the negated truncation. -/
def f32BucketFn (mn mx numColors : ℕ) (v : ℕ) : ℤ :=
  if mn < mx then
    if numColors = 0 then -(truncFl (fl32Ratio (v - mn) (mx - mn)) : ℤ)
    else (truncFl (fl32MulNat (fl32Ratio (v - mn) (mx - mn)) (numColors - 1)) : ℤ)
  else 0

/-- Model of `GarmentRecolorer._get_color_mapping`.  Brightness values are the
integer-valued V channel (held exactly in float32);
`(normalized * (num_colors - 1)).astype(int)` is binary32 division and
multiplication followed by truncation toward zero, per pixel. -/
def get_color_mapping (brightness : List ℕ) (numColors : ℕ) : List ℤ :=
  if brightness = [] then []
  else if listMin brightness < listMax brightness then
    brightness.map (fun (v : ℕ) =>
      f32BucketFn (listMin brightness) (listMax brightness) numColors v)
  else brightness.map (fun _ => (0 : ℤ))

/-- Effect of the `_apply_hsv_recoloring` loop on one foreground pixel whose
bucket index is `idx`: its hue and saturation are overwritten with those of
`targets[idx]` when `0 ≤ idx < targets.length` (the loop enumerates exactly
those indices), otherwise the pixel is left as is. -/
def overwriteHS (targets : List HSV) (idx : ℤ) (p : HSV) : HSV :=
  if 0 ≤ idx then
    match targets.get? idx.toNat with
    | some t => ⟨t.h, t.s, p.v⟩
    | none => p
  else p

/-- Model of `GarmentRecolorer._apply_hsv_recoloring`: walk the HSV image and
the mask together; each foreground pixel (mask > 0) consumes the next entry of
`colorIndices` (which was computed from the foreground pixels in the same
row-major order) and is recolored accordingly; background pixels are copied. -/
def applyHSVRecoloring (targets : List HSV) :
    List HSV → List ℕ → List ℤ → List HSV
  | [], _, _ => []
  | p :: ps, [], _ => p :: ps
  | p :: ps, m :: ms, idxs =>
      if 0 < m then
        match idxs with
        | i :: irest => overwriteHS targets i p :: applyHSVRecoloring targets ps ms irest
        | [] => p :: applyHSVRecoloring targets ps ms []
      else p :: applyHSVRecoloring targets ps ms idxs

/-- Brightness values of the foreground pixels in order
(`image_hsv[garment_mask, 2]`). -/
def maskedBrightness : List HSV → List ℕ → List ℕ
  | p :: ps, m :: ms =>
      if 0 < m then p.v :: maskedBrightness ps ms else maskedBrightness ps ms
  | _, _ => []

/-- The HSV-space recoloring computed inside `apply_colors` (steps: palette to
sorted HSV, image to HSV, foreground brightness collection, bucket mapping,
recoloring). -/
def recolorHSV (img : List BGR) (mask : List ℕ) (targetColors : List String) :
    List HSV :=
  applyHSVRecoloring (hex_colors_to_hsv targetColors) (img.map bgr2hsvPix) mask
    (get_color_mapping (maskedBrightness (img.map bgr2hsvPix) mask)
      (hex_colors_to_hsv targetColors).length)

/-- Model of `GarmentRecolorer.apply_colors`: precondition check on image and
mask, then the HSV pipeline followed by conversion back to BGR into the
`recolored_image` buffer. -/
def apply_colors (st : RecolorerState) (targetColors : List String) :
    Bool × RecolorerState :=
  match st.image, st.mask with
  | some img, some mask =>
      (true, { st with recolored_image := some ((recolorHSV img mask targetColors).map hsv2bgrPix) })
  | _, _ => (false, st)

/-- Model of `GarmentRecolorer.save_result`; the external `cv2.imwrite`
outcome is the `writeOk` parameter. -/
def save_result (writeOk : Bool) (st : RecolorerState) : Bool :=
  match st.recolored_image with
  | none => false
  | some _ => writeOk

/-! Model of `core/yarn_color_extractor.py` (class `ColorExtractor`). -/

/-- A 3-channel pixel as a plain tuple (the extractor works on tuples). -/
abbrev Pix3 := ℕ × ℕ × ℕ

/-- Mutable fields of a `ColorExtractor` instance. -/
structure ExtractorState where
  image : Option (List (List Pix3))
  image_rgb : Option (List (List Pix3))
  hex_codes : Option (List String)
  counts : Option (List ℕ)
deriving DecidableEq

/-- State right after `__init__`. -/
def initExtractor : ExtractorState := ⟨none, none, none, none⟩

/-- Result of a pipeline stage that can either return a value or raise. -/
inductive StageOutcome (α : Type) where
  | ok (val : α)
  | raised (msg : String)
deriving DecidableEq

/-- Model of `utils.convert_bgr_to_rgb`: reverse the channel order of every
pixel; `None` propagates. -/
def convert_bgr_to_rgb (img : Option (List (List Pix3))) :
    Option (List (List Pix3)) :=
  img.map (fun rows => rows.map (fun row => row.map
    (fun p => (p.2.2, p.2.1, p.1))))

/-- Model of `ColorExtractor._reshape_for_clustering`: raises `ValueError`
when no RGB image is present, otherwise flattens the rows to a pixel list. -/
def reshape_for_clustering (st : ExtractorState) : StageOutcome (List Pix3) :=
  match st.image_rgb with
  | none => .raised "Image not loaded. Call _preprocess_image() first."
  | some rows => .ok rows.flatten

/-- Result type of the external `sklearn` KMeans fit: a label per pixel and a
centroid color per cluster.  Centroids are stored at integer resolution,
standing for the `astype(int)`-truncated cluster means consumed by
`rgb_to_hex`. -/
structure KMeansResult where
  labels : List ℕ
  centers : List (ℤ × ℤ × ℤ)
deriving DecidableEq

/-- The external clustering primitive: arguments are `n_clusters`,
`random_state`, `n_init`, and the pixel list. -/
def KMeansAlg : Type := ℕ → ℕ → ℕ → List Pix3 → KMeansResult

/-- Model of `ColorExtractor._cluster_colors`:
`KMeans(n_clusters=self.n_colors, random_state=42, n_init=10).fit(pixels)`. -/
def cluster_colors (alg : KMeansAlg) (nColors : ℕ) (pixels : List Pix3) :
    KMeansResult :=
  alg nColors 42 10 pixels

/-- Largest label occurring in a list (0 for the empty list). -/
def maxLabel (labels : List ℕ) : ℕ := labels.foldr max 0

/-- Model of `np.unique(labels)`: the distinct values in ascending order. -/
def uniqueLabels (labels : List ℕ) : List ℕ :=
  (List.range (maxLabel labels + 1)).filter (fun l => decide (l ∈ labels))

/-- Model of `np.unique(labels, return_counts=True)`: ascending distinct
labels paired with their occurrence counts. -/
def uniqueWithCounts (labels : List ℕ) : List (ℕ × ℕ) :=
  (uniqueLabels labels).map (fun l => (l, labels.count l))

/-- One step of insertion into a list sorted by descending count: the new
element goes after every element of count ≥ its own.  This is the behavior of
`np.argsort(-counts)` on the small arrays this code sees (numpy falls back to
a stable insertion sort for fewer than 16 elements, and `n_colors` is capped
at 10 by the transport layer). -/
def insertDescCount (x : ℕ × ℕ) : List (ℕ × ℕ) → List (ℕ × ℕ)
  | [] => [x]
  | y :: ys => if y.2 < x.2 then x :: y :: ys else y :: insertDescCount x ys

/-- Stable sort by descending count, processing the input left to right. -/
def sortDescByCount (l : List (ℕ × ℕ)) : List (ℕ × ℕ) :=
  l.foldl (fun acc x => insertDescCount x acc) []

/-- Model of `ColorExtractor._sort_by_frequency`: count labels, sort clusters
by descending frequency, index the centroid array by the sorted labels and
render hex codes.  Returns (hex_codes, counts). -/
def sort_by_frequency (km : KMeansResult) : List String × List ℕ :=
  let pairs := sortDescByCount (uniqueWithCounts km.labels)
  let sortedColors := pairs.map (fun pr => km.centers.getD pr.1 (0, 0, 0))
  (sortedColors.map (fun c => rgb_to_hex c.1.toNat c.2.1.toNat c.2.2.toNat),
   pairs.map (fun pr => pr.2))

/-! Faithful model of `np.argsort(-counts)`: numpy's indirect introsort
`npy_aquicksort` (quicksort with median-of-3 pivot, a final insertion sort on
segments of at most 16 elements, and a heapsort fallback past the depth
limit).  The loops are ported one-for-one with explicit fuel; every fuel
budget strictly dominates the loop's iteration count on the inputs the C code
reaches, so the port computes the same index array. -/

/-- numpy `npy_get_msb` (position of the most significant bit, i.e. the floor
of the base-2 logarithm), which seeds the introsort depth limit. -/
def npyGetMsb (n : ℕ) : ℕ := natLog2 n

/-- The comparison key of slot `i` of the index array: `v[tosort[i]]`. -/
def vAt (v : List ℤ) (t : List ℕ) (i : ℕ) : ℤ := v.getD (t.getD i 0) 0

/-- `INTP_SWAP` of two slots of the index array. -/
def listSwap (t : List ℕ) (i j : ℕ) : List ℕ :=
  (t.set i (t.getD j 0)).set j (t.getD i 0)

/-- Partition scan `do ++pi; while (v[*pi] < vp);`. -/
def scanUp (v : List ℤ) (t : List ℕ) (vp : ℤ) : ℕ → ℕ → ℕ
  | 0, i => i + 1
  | f + 1, i => if vAt v t (i + 1) < vp then scanUp v t vp f (i + 1) else i + 1

/-- Partition scan `do --pj; while (vp < v[*pj]);`. -/
def scanDown (v : List ℤ) (t : List ℕ) (vp : ℤ) : ℕ → ℕ → ℕ
  | 0, j => j - 1
  | f + 1, j => if vp < vAt v t (j - 1) then scanDown v t vp f (j - 1) else j - 1

/-- The two-pointer partition loop: scan up, scan down, swap until the
pointers cross; returns the updated index array and the crossing point. -/
def partLoop (v : List ℤ) (vp : ℤ) : ℕ → List ℕ → ℕ → ℕ → List ℕ × ℕ
  | 0, t, i, _ => (t, i)
  | f + 1, t, i, j =>
      let i2 := scanUp v t vp t.length i
      let j2 := scanDown v t vp t.length j
      if j2 ≤ i2 then (t, i2)
      else partLoop v vp f (listSwap t i2 j2) i2 j2

/-- Shifting inner loop of the final insertion sort
(`while (pj > pl && LT(vp, v[*pk])) *pj-- = *pk--;` followed by `*pj = vi`). -/
def insShift (v : List ℤ) (pl vi : ℕ) (vp : ℤ) : ℕ → List ℕ → ℕ → List ℕ
  | 0, t, j => t.set j vi
  | f + 1, t, j =>
      if pl < j ∧ vp < v.getD (t.getD (j - 1) 0) 0 then
        insShift v pl vi vp f (t.set j (t.getD (j - 1) 0)) (j - 1)
      else t.set j vi

/-- Final insertion sort over the segment `[pl, pr]`
(`for (pi = pl + 1; pi <= pr; ++pi)`); the fuel counts remaining
iterations. -/
def insSortLoop (v : List ℤ) (pl pr : ℕ) : ℕ → List ℕ → ℕ → List ℕ
  | 0, t, _ => t
  | f + 1, t, i =>
      if i ≤ pr then
        insSortLoop v pl pr f
          (insShift v pl (t.getD i 0) (v.getD (t.getD i 0) 0) i t i) (i + 1)
      else t

/-- Read slot `i` of the 1-based heap view `a = tosort + off - 1` used by
`npy_aheapsort`. -/
def aGet (t : List ℕ) (off i : ℕ) : ℕ := t.getD (off + i - 1) 0

/-- Write slot `i` of the 1-based heap view. -/
def aSet (t : List ℕ) (off i x : ℕ) : List ℕ := t.set (off + i - 1) x

/-- Sift-down of `npy_aheapsort` (the inner `for (i = l, j = l*2; j <= n;)`
loop followed by `a[i] = tmp`); `j` at least doubles each step, so fuel
`n + 1` always suffices. -/
def siftDown (v : List ℤ) (off tmp n : ℕ) : ℕ → List ℕ → ℕ → ℕ → List ℕ
  | 0, t, i, _ => aSet t off i tmp
  | f + 1, t, i, j =>
      if j ≤ n then
        let j2 := if j < n ∧ v.getD (aGet t off j) 0 < v.getD (aGet t off (j + 1)) 0
          then j + 1 else j
        if v.getD tmp 0 < v.getD (aGet t off j2) 0 then
          siftDown v off tmp n f (aSet t off i (aGet t off j2)) j2 (2 * j2)
        else aSet t off i tmp
      else aSet t off i tmp

/-- Heapify phase of `npy_aheapsort` (`for (l = n >> 1; l > 0; --l)`); the
fuel is the current value of `l`. -/
def heapBuild (v : List ℤ) (off n : ℕ) : ℕ → List ℕ → List ℕ
  | 0, t => t
  | l + 1, t =>
      heapBuild v off n l
        (siftDown v off (aGet t off (l + 1)) n (n + 1) t (l + 1) (2 * (l + 1)))

/-- Extraction phase of `npy_aheapsort` (`for (; n > 1;)`); the fuel is the
current heap size `n`. -/
def heapExtract (v : List ℤ) (off : ℕ) : ℕ → List ℕ → List ℕ
  | 0, t => t
  | 1, t => t
  | n + 2, t =>
      heapExtract v off (n + 1)
        (siftDown v off (aGet t off (n + 2)) (n + 1) (n + 2)
          (aSet t off (n + 2) (aGet t off 1)) 1 2)

/-- numpy `npy_aheapsort` applied to the index segment `[pl, pr]` (the
introsort's depth-limit fallback). -/
def aheapsortSeg (v : List ℤ) (t : List ℕ) (pl pr : ℕ) : List ℕ :=
  heapExtract v pl (pr + 1 - pl) (heapBuild v pl (pr + 1 - pl) ((pr + 1 - pl) / 2) t)

/-- Main loop of `npy_aquicksort`: each fuel step performs either one
quicksort partition (pushing the larger half on the explicit stack) or one
segment finish (heapsort past the depth limit, insertion sort at or below 16
elements, then a stack pop).  At most one partition per element placed plus
one finish per segment occur, so the caller's `2·num + 8` fuel strictly
dominates the iteration count. -/
def aqsortLoop (v : List ℤ) : ℕ → List ℕ → ℕ → ℕ → List (ℕ × ℕ) → ℤ → List ℕ
  | 0, t, _, _, _, _ => t
  | f + 1, t, pl, pr, stk, dl =>
      if 15 < pr - pl then
        if dl < 0 then
          let t2 := aheapsortSeg v t pl pr
          match stk with
          | [] => t2
          | (a, b) :: rest => aqsortLoop v f t2 a b rest (dl - 1)
        else
          let pm := pl + (pr - pl) / 2
          let t1 := if vAt v t pm < vAt v t pl then listSwap t pm pl else t
          let t2 := if vAt v t1 pr < vAt v t1 pm then listSwap t1 pr pm else t1
          let t3 := if vAt v t2 pm < vAt v t2 pl then listSwap t2 pm pl else t2
          let vp := vAt v t3 pm
          let t4 := listSwap t3 pm (pr - 1)
          let pres := partLoop v vp t4.length t4 pl (pr - 1)
          let t6 := listSwap pres.1 pres.2 (pr - 1)
          if pres.2 - pl < pr - pres.2 then
            aqsortLoop v f t6 pl (pres.2 - 1) ((pres.2 + 1, pr) :: stk) (dl - 1)
          else
            aqsortLoop v f t6 (pres.2 + 1) pr ((pl, pres.2 - 1) :: stk) (dl - 1)
      else
        let t2 := insSortLoop v pl pr (pr - pl) t (pl + 1)
        match stk with
        | [] => t2
        | (a, b) :: rest => aqsortLoop v f t2 a b rest dl

/-- numpy `npy_aquicksort(vv, tosort = [0..num), num)`: the sort behind
`np.argsort` for integer keys. -/
def npyAquicksort (v : List ℤ) : List ℕ :=
  aqsortLoop v (2 * v.length + 8) (List.range v.length) 0 (v.length - 1) []
    (2 * (npyGetMsb v.length : ℤ))

/-- `np.argsort(-counts)` exactly as `_sort_by_frequency` invokes it: negate
the (integer) counts and argsort the result. -/
def argsortNegCounts (counts : List ℕ) : List ℕ :=
  npyAquicksort (counts.map (fun (c : ℕ) => -(c : ℤ)))

/-- The (label, count) sequence `_sort_by_frequency` produces under the
faithful argsort model: `np.unique` pairs indexed by
`np.argsort(-counts)`, i.e. `zip(unique_labels[sorted_indices],
counts[sorted_indices])`. -/
def sortedClusterPairs (labels : List ℕ) : List (ℕ × ℕ) :=
  (argsortNegCounts ((uniqueWithCounts labels).map (fun p => p.2))).map
    (fun i => (uniqueWithCounts labels).getD i (0, 0))

/-- Functional form of one insertion-sort step on the reversed sorted prefix:
scanning from the right, the new index `x` moves left past the entries whose
key exceeds `vp` (the key of `x`). -/
def insRevA (v : List ℤ) (vp : ℤ) (x : ℕ) : List ℕ → List ℕ
  | [] => [x]
  | y :: ys => if vp < v.getD y 0 then y :: insRevA v vp x ys else x :: y :: ys

/-- The order the insertion-sort path of the argsort establishes: ascending
key, ties broken by ascending position. -/
def argLt (v : List ℤ) (i k : ℕ) : Prop :=
  v.getD i 0 < v.getD k 0 ∨ (v.getD i 0 = v.getD k 0 ∧ i < k)

/-- Model of `ColorExtractor.extract_dominant_colors`: the full orchestration
(load, convert, reshape, cluster, sort); returns the hex codes (or `none` on
load failure) together with the final instance state. -/
def extract_dominant_colors (alg : KMeansAlg)
    (loaded : Option (List (List Pix3))) (nColors : ℕ) :
    Option (List String) × ExtractorState :=
  let st0 : ExtractorState := ⟨loaded, none, none, none⟩
  match loaded with
  | none => (none, st0)
  | some _ =>
      let rgb := convert_bgr_to_rgb loaded
      let st1 := { st0 with image_rgb := rgb }
      match rgb with
      | none => (none, st1)
      | some rows =>
          let km := cluster_colors alg nColors rows.flatten
          let res := sort_by_frequency km
          (some res.1, { st1 with hex_codes := some res.1,
                                  counts := some res.2 })

/-! Lemmas about the stable insertion sorts. -/

theorem mem_insertByV {x y : HSV} : ∀ (l : List HSV),
    y ∈ insertByV x l → y = x ∨ y ∈ l := by
  intro l
  induction l with
  | nil =>
      intro h
      simp only [insertByV, List.mem_singleton] at h
      exact Or.inl h
  | cons z zs ih =>
      intro h
      simp only [insertByV] at h
      split at h
      · rcases List.mem_cons.mp h with h | h
        · exact Or.inl h
        · exact Or.inr h
      · rcases List.mem_cons.mp h with h | h
        · exact Or.inr (by simp [h])
        · rcases ih h with h2 | h2
          · exact Or.inl h2
          · exact Or.inr (List.mem_cons_of_mem z h2)

theorem insertByV_pairwise {x : HSV} {l : List HSV}
    (hl : l.Pairwise (fun a b => a.v ≤ b.v)) :
    (insertByV x l).Pairwise (fun a b => a.v ≤ b.v) := by
  induction l with
  | nil => simp [insertByV]
  | cons y ys ih =>
      rcases List.pairwise_cons.mp hl with ⟨hy, hys⟩
      simp only [insertByV]
      split
      · rename_i hlt
        refine List.pairwise_cons.mpr ⟨?_, hl⟩
        intro z hz
        rcases List.mem_cons.mp hz with rfl | hz
        · omega
        · have := hy z hz; omega
      · rename_i hge
        refine List.pairwise_cons.mpr ⟨?_, ih hys⟩
        intro z hz
        rcases mem_insertByV ys hz with rfl | hz
        · omega
        · exact hy z hz

theorem insertByV_perm (x : HSV) (l : List HSV) : (insertByV x l).Perm (x :: l) := by
  induction l with
  | nil => exact List.Perm.refl _
  | cons y ys ih =>
      simp only [insertByV]
      split
      · exact List.Perm.refl _
      · exact (List.Perm.cons y ih).trans (List.Perm.swap x y ys)

theorem sortByV_fold_perm : ∀ (l acc : List HSV),
    (l.foldl (fun a x => insertByV x a) acc).Perm (l ++ acc) := by
  intro l
  induction l with
  | nil => intro acc; simp
  | cons x xs ih =>
      intro acc
      exact ((ih _).trans
        (List.Perm.append_left xs (insertByV_perm x acc))).trans List.perm_middle

theorem sortByV_perm (l : List HSV) : (sortByV l).Perm l :=
  (sortByV_fold_perm l []).trans (by simp)

theorem sortByV_fold_pairwise : ∀ (l acc : List HSV),
    acc.Pairwise (fun a b => a.v ≤ b.v) →
    (l.foldl (fun a x => insertByV x a) acc).Pairwise (fun a b => a.v ≤ b.v) := by
  intro l
  induction l with
  | nil => intro acc h; exact h
  | cons x xs ih => intro acc h; exact ih _ (insertByV_pairwise h)

theorem sortByV_pairwise (l : List HSV) :
    (sortByV l).Pairwise (fun a b => a.v ≤ b.v) :=
  sortByV_fold_pairwise l [] (by simp)

/-- Descending-count order with ascending-label tie break: the order in which
`_sort_by_frequency` emits clusters. -/
def descLex (a b : ℕ × ℕ) : Prop := b.2 < a.2 ∨ (a.2 = b.2 ∧ a.1 < b.1)

theorem mem_insertDescCount {x y : ℕ × ℕ} : ∀ (l : List (ℕ × ℕ)),
    y ∈ insertDescCount x l → y = x ∨ y ∈ l := by
  intro l
  induction l with
  | nil =>
      intro h
      simp only [insertDescCount, List.mem_singleton] at h
      exact Or.inl h
  | cons z zs ih =>
      intro h
      simp only [insertDescCount] at h
      split at h
      · rcases List.mem_cons.mp h with h | h
        · exact Or.inl h
        · exact Or.inr h
      · rcases List.mem_cons.mp h with h | h
        · exact Or.inr (by simp [h])
        · rcases ih h with h2 | h2
          · exact Or.inl h2
          · exact Or.inr (List.mem_cons_of_mem z h2)

theorem insertDescCount_pairwise {x : ℕ × ℕ} {l : List (ℕ × ℕ)}
    (hl : l.Pairwise descLex) (hlab : ∀ y ∈ l, y.1 < x.1) :
    (insertDescCount x l).Pairwise descLex := by
  induction l with
  | nil => simp [insertDescCount]
  | cons y ys ih =>
      rcases List.pairwise_cons.mp hl with ⟨hy, hys⟩
      simp only [insertDescCount]
      split
      · rename_i hlt
        refine List.pairwise_cons.mpr ⟨?_, hl⟩
        intro z hz
        rcases List.mem_cons.mp hz with rfl | hz
        · exact Or.inl hlt
        · have := hy z hz
          left
          rcases this with h | h
          · omega
          · omega
      · rename_i hge
        refine List.pairwise_cons.mpr
          ⟨?_, ih hys (fun z hz => hlab z (List.mem_cons_of_mem y hz))⟩
        intro z hz
        rcases mem_insertDescCount ys hz with rfl | hz
        · rcases Nat.lt_or_ge z.2 y.2 with h | h
          · exact Or.inl h
          · exact Or.inr ⟨by omega, hlab y (List.mem_cons_self y ys)⟩
        · exact hy z hz

theorem sortDescByCount_fold_pairwise : ∀ (l acc : List (ℕ × ℕ)),
    l.Pairwise (fun a b => a.1 < b.1) → acc.Pairwise descLex →
    (∀ x ∈ acc, ∀ y ∈ l, x.1 < y.1) →
    (l.foldl (fun a x => insertDescCount x a) acc).Pairwise descLex := by
  intro l
  induction l with
  | nil => intro acc _ hacc _; exact hacc
  | cons x xs ih =>
      intro acc hl hacc hcross
      rcases List.pairwise_cons.mp hl with ⟨hx, hxs⟩
      refine ih (insertDescCount x acc) hxs
        (insertDescCount_pairwise hacc
          (fun y hy => hcross y hy x (List.mem_cons_self x xs))) ?_
      intro z hz y hy
      rcases mem_insertDescCount acc hz with rfl | hz
      · exact hx y hy
      · exact hcross z hz y (List.mem_cons_of_mem x hy)

theorem sortDescByCount_pairwise {l : List (ℕ × ℕ)}
    (hl : l.Pairwise (fun a b => a.1 < b.1)) :
    (sortDescByCount l).Pairwise descLex :=
  sortDescByCount_fold_pairwise l [] hl (by simp) (by simp)

theorem insertDescCount_perm (x : ℕ × ℕ) (l : List (ℕ × ℕ)) :
    (insertDescCount x l).Perm (x :: l) := by
  induction l with
  | nil => exact List.Perm.refl _
  | cons y ys ih =>
      simp only [insertDescCount]
      split
      · exact List.Perm.refl _
      · exact (List.Perm.cons y ih).trans (List.Perm.swap x y ys)

theorem sortDescByCount_fold_perm : ∀ (l acc : List (ℕ × ℕ)),
    (l.foldl (fun a x => insertDescCount x a) acc).Perm (l ++ acc) := by
  intro l
  induction l with
  | nil => intro acc; simp
  | cons x xs ih =>
      intro acc
      exact ((ih _).trans
        (List.Perm.append_left xs (insertDescCount_perm x acc))).trans List.perm_middle

theorem sortDescByCount_perm (l : List (ℕ × ℕ)) : (sortDescByCount l).Perm l :=
  (sortDescByCount_fold_perm l []).trans (by simp)

theorem uniqueWithCounts_label_sorted (labels : List ℕ) :
    (uniqueWithCounts labels).Pairwise (fun a b => a.1 < b.1) := by
  unfold uniqueWithCounts uniqueLabels
  exact List.pairwise_map.mpr ((List.pairwise_lt_range _).filter _)

/-! Decomposition lemmas for the recoloring pipeline. -/

/-- The idealized per-pixel bucket formula of claim C2: the same linear
normalization and truncation as `f32BucketFn`, but over exact rational
arithmetic (`Int.tdiv` of integer numerator by positive denominator).  On most
inputs this agrees with the program's float32 evaluation; it diverges where
rounding moves the product across an integer boundary (see the C2
counterexample), which is why it is a comparison formula only and not the
pipeline definition. -/
def bucketFn (mn mx numColors : ℕ) (v : ℕ) : ℤ :=
  if mn < mx then
    Int.tdiv (((v : ℤ) - (mn : ℤ)) * ((numColors : ℤ) - 1)) ((mx : ℤ) - (mn : ℤ))
  else 0

theorem get_color_mapping_eq_map (bs : List ℕ) (n : ℕ) :
    get_color_mapping bs n = bs.map (f32BucketFn (listMin bs) (listMax bs) n) := by
  by_cases hbs : bs = []
  · subst hbs; rfl
  · by_cases hlt : listMin bs < listMax bs
    · unfold get_color_mapping
      rw [if_neg hbs, if_pos hlt]
    · unfold get_color_mapping
      rw [if_neg hbs, if_neg hlt]
      refine List.map_congr_left ?_
      intro v _
      unfold f32BucketFn
      rw [if_neg hlt]

theorem foldl_min_le_init : ∀ (l : List ℕ) (acc : ℕ), l.foldl min acc ≤ acc := by
  intro l
  induction l with
  | nil => intro acc; exact le_refl _
  | cons x xs ih =>
      intro acc
      exact le_trans (ih (min acc x)) (min_le_left _ _)

theorem foldl_min_le_mem : ∀ (l : List ℕ) (acc x : ℕ), x ∈ l →
    l.foldl min acc ≤ x := by
  intro l
  induction l with
  | nil => intro acc x hx; cases hx
  | cons y ys ih =>
      intro acc x hx
      rcases List.mem_cons.mp hx with rfl | hx
      · exact le_trans (foldl_min_le_init ys (min acc x)) (min_le_right _ _)
      · exact ih _ x hx

theorem init_le_foldl_max : ∀ (l : List ℕ) (acc : ℕ), acc ≤ l.foldl max acc := by
  intro l
  induction l with
  | nil => intro acc; exact le_refl _
  | cons x xs ih =>
      intro acc
      exact le_trans (le_max_left _ _) (ih (max acc x))

theorem mem_le_foldl_max : ∀ (l : List ℕ) (acc x : ℕ), x ∈ l →
    x ≤ l.foldl max acc := by
  intro l
  induction l with
  | nil => intro acc x hx; cases hx
  | cons y ys ih =>
      intro acc x hx
      rcases List.mem_cons.mp hx with rfl | hx
      · exact le_trans (le_max_right _ _) (init_le_foldl_max ys (max acc x))
      · exact ih _ x hx

theorem listMin_le {l : List ℕ} {x : ℕ} (hx : x ∈ l) : listMin l ≤ x := by
  cases l with
  | nil => cases hx
  | cons b bs =>
      unfold listMin
      rcases List.mem_cons.mp hx with rfl | hx
      · exact foldl_min_le_init bs x
      · exact foldl_min_le_mem bs b x hx

theorem le_listMax {l : List ℕ} {x : ℕ} (hx : x ∈ l) : x ≤ listMax l := by
  cases l with
  | nil => cases hx
  | cons b bs =>
      unfold listMax
      rcases List.mem_cons.mp hx with rfl | hx
      · exact init_le_foldl_max bs x
      · exact mem_le_foldl_max bs b x hx

theorem maskedBrightness_getD_mem :
    ∀ (ps : List HSV) (ms : List ℕ) (j : ℕ), j < ps.length → j < ms.length →
    0 < ms.getD j 0 → (ps.getD j ⟨0, 0, 0⟩).v ∈ maskedBrightness ps ms := by
  intro ps
  induction ps with
  | nil => intro ms j hj _ _; simp at hj
  | cons p ps2 ih =>
      intro ms j hj hjm hm
      cases ms with
      | nil => simp at hjm
      | cons m ms2 =>
          cases j with
          | zero =>
              simp only [List.getD_cons_zero] at hm ⊢
              simp only [maskedBrightness, if_pos hm]
              exact List.mem_cons_self _ _
          | succ j2 =>
              simp only [List.getD_cons_succ] at hm ⊢
              have hmem := ih ms2 j2 (by simpa using hj) (by simpa using hjm) hm
              simp only [maskedBrightness]
              split
              · exact List.mem_cons_of_mem _ hmem
              · exact hmem

theorem foldl_max_le : ∀ (l : List ℕ) (acc K : ℕ), acc ≤ K → (∀ x ∈ l, x ≤ K) →
    l.foldl max acc ≤ K := by
  intro l
  induction l with
  | nil => intro acc K ha _; exact ha
  | cons x xs ih =>
      intro acc K ha hall
      exact ih _ _ (max_le ha (hall x (List.mem_cons_self _ _)))
        (fun y hy => hall y (List.mem_cons_of_mem _ hy))

theorem listMax_le {l : List ℕ} {K : ℕ} (h : ∀ x ∈ l, x ≤ K) : listMax l ≤ K := by
  cases l with
  | nil => exact Nat.zero_le _
  | cons b bs =>
      unfold listMax
      exact foldl_max_le bs b K (h b (List.mem_cons_self _ _))
        (fun y hy => h y (List.mem_cons_of_mem _ hy))

theorem maskedBrightness_mem_val : ∀ {ps : List HSV} {ms : List ℕ} {x : ℕ},
    x ∈ maskedBrightness ps ms → ∃ p ∈ ps, x = p.v := by
  intro ps
  induction ps with
  | nil => intro ms x hx; simp [maskedBrightness] at hx
  | cons p ps2 ih =>
      intro ms x hx
      cases ms with
      | nil => simp [maskedBrightness] at hx
      | cons m ms2 =>
          simp only [maskedBrightness] at hx
          split at hx
          · rcases List.mem_cons.mp hx with rfl | hx2
            · exact ⟨p, List.mem_cons_self _ _, rfl⟩
            · obtain ⟨q, hq, hxq⟩ := ih hx2
              exact ⟨q, List.mem_cons_of_mem _ hq, hxq⟩
          · obtain ⟨q, hq, hxq⟩ := ih hx
            exact ⟨q, List.mem_cons_of_mem _ hq, hxq⟩

theorem overwriteHS_apply (targets : List HSV) (p : HSV) {idx : ℤ}
    (h0 : 0 ≤ idx) (hlt : idx.toNat < targets.length) :
    ∃ t, targets.get? idx.toNat = some t ∧
      overwriteHS targets idx p = ⟨t.h, t.s, p.v⟩ := by
  have hget : targets.get? idx.toNat = some targets[idx.toNat] := by
    rw [List.get?_eq_getElem?]
    exact List.getElem?_eq_getElem hlt
  refine ⟨targets[idx.toNat], hget, ?_⟩
  unfold overwriteHS
  rw [if_pos h0, hget]

theorem overwriteHS_v (targets : List HSV) (idx : ℤ) (p : HSV) :
    (overwriteHS targets idx p).v = p.v := by
  unfold overwriteHS
  split
  · cases h : targets.get? idx.toNat <;> simp [h]
  · rfl

theorem overwriteHS_s_le (targets : List HSV) (idx : ℤ) (p : HSV)
    (hp : p.s ≤ 255) (ht : ∀ t ∈ targets, t.s ≤ 255) :
    (overwriteHS targets idx p).s ≤ 255 := by
  unfold overwriteHS
  split
  · cases h : targets.get? idx.toNat with
    | none => simpa using hp
    | some t => simpa using ht t (List.get?_mem h)
  · exact hp

theorem applyHSVRecoloring_zip (targets : List HSV) (f : ℕ → ℤ) :
    ∀ (ps : List HSV) (ms : List ℕ), ps.length = ms.length →
    applyHSVRecoloring targets ps ms ((maskedBrightness ps ms).map f) =
      List.zipWith (fun p m => if 0 < m then overwriteHS targets (f p.v) p else p)
        ps ms := by
  intro ps
  induction ps with
  | nil => intro ms _; rfl
  | cons p ps2 ih =>
      intro ms hlen
      cases ms with
      | nil => simp at hlen
      | cons m ms2 =>
          have hlen2 : ps2.length = ms2.length := by simpa using hlen
          by_cases hm : 0 < m
          · simp only [maskedBrightness, if_pos hm, List.map_cons,
              applyHSVRecoloring, List.zipWith_cons_cons]
            exact congrArg _ (ih ms2 hlen2)
          · simp only [maskedBrightness, if_neg hm, applyHSVRecoloring,
              List.zipWith_cons_cons]
            exact congrArg _ (ih ms2 hlen2)

theorem applyHSVRecoloring_nil_targets :
    ∀ (ps : List HSV) (ms : List ℕ) (idxs : List ℤ),
    applyHSVRecoloring [] ps ms idxs = ps := by
  intro ps
  induction ps with
  | nil => intro ms idxs; rfl
  | cons p ps2 ih =>
      intro ms idxs
      cases ms with
      | nil => rfl
      | cons m ms2 =>
          simp only [applyHSVRecoloring]
          split
          · rcases idxs with _ | ⟨i, irest⟩
            · rw [ih]
            · show overwriteHS [] i p :: applyHSVRecoloring [] ps2 ms2 irest = p :: ps2
              rw [ih, show overwriteHS [] i p = p from by
                unfold overwriteHS; split <;> rfl]
          · rw [ih]

theorem mem_hex_colors_to_hsv {t : HSV} {cs : List String}
    (h : t ∈ hex_colors_to_hsv cs) :
    ∃ c ∈ cs, t = bgr2hsvPix ((hex_to_bgr c).getD ⟨0, 0, 0⟩) := by
  unfold hex_colors_to_hsv at h
  have h2 := (sortByV_perm _).mem_iff.mp h
  rcases List.mem_map.mp h2 with ⟨c, hc, hce⟩
  exact ⟨c, hc, hce.symm⟩

theorem hex_colors_to_hsv_s_le {cs : List String} :
    ∀ t ∈ hex_colors_to_hsv cs, t.s ≤ 255 := by
  intro t ht
  rcases mem_hex_colors_to_hsv ht with ⟨c, _, rfl⟩
  exact bgr2hsv_s_le _

theorem hex_colors_to_hsv_length (cs : List String) :
    (hex_colors_to_hsv cs).length = cs.length := by
  unfold hex_colors_to_hsv
  rw [(sortByV_perm _).length_eq, List.length_map]

/-- The recoloring pipeline acts pointwise: with aligned image and mask, each
pixel is recolored through its own brightness bucket. -/
theorem recolorHSV_eq_zip (img : List BGR) (mask : List ℕ)
    (targetColors : List String) (hlen : img.length = mask.length) :
    recolorHSV img mask targetColors =
      List.zipWith (fun p m => if 0 < m then
          overwriteHS (hex_colors_to_hsv targetColors)
            (f32BucketFn (listMin (maskedBrightness (img.map bgr2hsvPix) mask))
              (listMax (maskedBrightness (img.map bgr2hsvPix) mask))
              (hex_colors_to_hsv targetColors).length p.v) p
        else p) (img.map bgr2hsvPix) mask := by
  unfold recolorHSV
  rw [get_color_mapping_eq_map]
  exact applyHSVRecoloring_zip _ _ _ _ (by simpa using hlen)

theorem recolorHSV_length (img : List BGR) (mask : List ℕ)
    (targetColors : List String) (hlen : img.length = mask.length) :
    (recolorHSV img mask targetColors).length = img.length := by
  rw [recolorHSV_eq_zip img mask targetColors hlen]
  simp [hlen]

theorem apply_colors_some {st : RecolorerState} {img : List BGR} {mask : List ℕ}
    (hi : st.image = some img) (hm : st.mask = some mask)
    (targetColors : List String) :
    apply_colors st targetColors =
      (true, { st with recolored_image := some ((recolorHSV img mask targetColors).map hsv2bgrPix) }) := by
  unfold apply_colors
  rw [hi, hm]

/-! Claim theorems for the recolorer. -/

/-- C1: for every garment image and non-empty validated target palette on
which recoloring succeeds, every foreground pixel (mask value > 0) of the
output image has brightness (HSV value channel) equal to that pixel's
brightness in the input image, within integer rounding tolerance of at most
1 unit (in fact the difference is 0). -/
theorem claim_C1_brightness_preserved
    (st : RecolorerState) (targetColors : List String) (img : List BGR)
    (mask : List ℕ) (hi : st.image = some img) (hm : st.mask = some mask)
    (hlen : img.length = mask.length)
    (hvalid : ∀ p ∈ img, valueOf p ≤ 255) :
    (apply_colors st targetColors).1 = true ∧
    ∃ out, ((apply_colors st targetColors).2).recolored_image = some out ∧
      out.length = img.length ∧
      ∀ j, j < img.length → 0 < mask.getD j 0 →
        |((bgr2hsvPix (out.getD j ⟨0, 0, 0⟩)).v : ℤ) -
          ((bgr2hsvPix (img.getD j ⟨0, 0, 0⟩)).v : ℤ)| ≤ 1 := by
  rw [apply_colors_some hi hm targetColors]
  refine ⟨rfl, (recolorHSV img mask targetColors).map hsv2bgrPix, rfl, ?_, ?_⟩
  · rw [List.length_map]
    exact recolorHSV_length img mask targetColors hlen
  · intro j hj hmask
    have hjr : j < (recolorHSV img mask targetColors).length := by
      rw [recolorHSV_length img mask targetColors hlen]; exact hj
    have hjo : j < ((recolorHSV img mask targetColors).map hsv2bgrPix).length := by
      simpa using hjr
    have hjmask : j < mask.length := by omega
    have hjm : j < (img.map bgr2hsvPix).length := by simpa using hj
    rw [List.getD_eq_getElem _ _ hjo, List.getElem_map]
    have hq : (recolorHSV img mask targetColors)[j] =
        (if 0 < mask[j] then
          overwriteHS (hex_colors_to_hsv targetColors)
            (f32BucketFn (listMin (maskedBrightness (img.map bgr2hsvPix) mask))
              (listMax (maskedBrightness (img.map bgr2hsvPix) mask))
              (hex_colors_to_hsv targetColors).length
              ((img.map bgr2hsvPix)[j]).v)
            ((img.map bgr2hsvPix)[j])
        else ((img.map bgr2hsvPix)[j])) := by
      rw [List.getElem_of_eq (recolorHSV_eq_zip img mask targetColors hlen) hjr]
      rw [List.getElem_zipWith]
    set q := (recolorHSV img mask targetColors)[j] with hqdef
    have hpj : (img.map bgr2hsvPix)[j] =
        bgr2hsvPix (img[j]) := by rw [List.getElem_map]
    have hqv : q.v = (bgr2hsvPix (img[j])).v := by
      rw [hq, hpj]
      split
      · exact overwriteHS_v _ _ _
      · rfl
    have hqs : q.s ≤ 255 := by
      rw [hq, hpj]
      split
      · exact overwriteHS_s_le _ _ _ (bgr2hsv_s_le _) hex_colors_to_hsv_s_le
      · exact bgr2hsv_s_le _
    have hqvle : q.v ≤ 255 := by
      rw [hqv, bgr2hsv_v]
      exact hvalid _ (List.getElem_mem hj)
    have hout : (bgr2hsvPix (hsv2bgrPix q)).v = q.v := by
      rw [bgr2hsv_v]
      exact hsv2bgr_valueOf q hqs hqvle
    have himg : img.getD j ⟨0, 0, 0⟩ = img[j] := List.getD_eq_getElem _ _ hj
    rw [himg, hout, hqv]
    simp

/-- C1 witness: a concrete one-pixel foreground image with one target color. -/
theorem claim_C1_brightness_preserved_witness :
    (apply_colors ⟨some [⟨10, 20, 30⟩], some [5], none, none⟩ ["#ff0000"]).1 = true ∧
    ∃ out, ((apply_colors ⟨some [⟨10, 20, 30⟩], some [5], none, none⟩
        ["#ff0000"]).2).recolored_image = some out ∧
      out.length = [(⟨10, 20, 30⟩ : BGR)].length ∧
      ∀ j, j < [(⟨10, 20, 30⟩ : BGR)].length → 0 < [5].getD j 0 →
        |((bgr2hsvPix (out.getD j ⟨0, 0, 0⟩)).v : ℤ) -
          ((bgr2hsvPix ([(⟨10, 20, 30⟩ : BGR)].getD j ⟨0, 0, 0⟩)).v : ℤ)| ≤ 1 :=
  claim_C1_brightness_preserved _ ["#ff0000"] _ _ rfl rfl (by decide) (by decide)

/-- C9: the recoloring stage does not mutate its inputs: the stored source
image, the stored mask and the no-background buffer are unchanged by
`apply_colors`; only the separate `recolored_image` buffer is written. -/
theorem claim_C9_no_input_mutation (st : RecolorerState)
    (targetColors : List String) :
    ((apply_colors st targetColors).2).image = st.image ∧
    ((apply_colors st targetColors).2).mask = st.mask ∧
    ((apply_colors st targetColors).2).image_no_bg = st.image_no_bg := by
  unfold apply_colors
  rcases hi : st.image with _ | img <;> rcases hm : st.mask with _ | mask <;>
    simp [hi, hm]

/-- C10: with image and mask available, an empty target-color list succeeds:
`apply_colors` returns `True`, no palette color is applied to any pixel, and
the output equals the input image passed through the 8-bit HSV round trip
only. -/
theorem claim_C10_empty_palette (st : RecolorerState) (img : List BGR)
    (mask : List ℕ) (hi : st.image = some img) (hm : st.mask = some mask) :
    apply_colors st [] =
      (true, { st with recolored_image := some (img.map (fun p => hsv2bgrPix (bgr2hsvPix p))) }) := by
  rw [apply_colors_some hi hm []]
  have hrec : recolorHSV img mask [] = img.map bgr2hsvPix := by
    unfold recolorHSV
    rw [show hex_colors_to_hsv [] = [] from rfl]
    exact applyHSVRecoloring_nil_targets _ _ _
  rw [hrec, List.map_map]
  rfl

/-- C10 witness: concrete two-pixel image, empty palette. -/
theorem claim_C10_empty_palette_witness :
    apply_colors ⟨some [⟨1, 2, 3⟩, ⟨200, 100, 50⟩], some [0, 9], none, none⟩ [] =
      (true, { (⟨some [⟨1, 2, 3⟩, ⟨200, 100, 50⟩], some [0, 9], none, none⟩ : RecolorerState) with recolored_image := some ([⟨1, 2, 3⟩, ⟨200, 100, 50⟩].map (fun p => hsv2bgrPix (bgr2hsvPix p))) }) :=
  claim_C10_empty_palette _ _ _ rfl rfl

/-- C3 counterexample: a background pixel (mask 0) that is not bit-for-bit
identical after recoloring: BGR (255,1,0) comes back from the HSV round trip
as (255,0,0). -/
theorem claim_C3_counterexample :
    (apply_colors ⟨some [⟨255, 1, 0⟩], some [0], none, none⟩
        ["#00ff00"]).2.recolored_image = some [⟨255, 0, 0⟩] ∧
    (⟨255, 0, 0⟩ : BGR) ≠ ⟨255, 1, 0⟩ := by
  constructor
  · decide
  · decide

/-- C3 amended: background pixels are untouched in HSV space, so in the
output they equal the corresponding input pixel passed through the 8-bit
BGR→HSV→BGR round trip (not necessarily bit-for-bit equal to the input). -/
theorem claim_C3_background_roundtrip
    (st : RecolorerState) (targetColors : List String) (img : List BGR)
    (mask : List ℕ) (hi : st.image = some img) (hm : st.mask = some mask)
    (hlen : img.length = mask.length) :
    (apply_colors st targetColors).1 = true ∧
    ∃ out, ((apply_colors st targetColors).2).recolored_image = some out ∧
      out.length = img.length ∧
      ∀ j, j < img.length → mask.getD j 0 = 0 →
        out.getD j ⟨0, 0, 0⟩ = hsv2bgrPix (bgr2hsvPix (img.getD j ⟨0, 0, 0⟩)) := by
  rw [apply_colors_some hi hm targetColors]
  refine ⟨rfl, (recolorHSV img mask targetColors).map hsv2bgrPix, rfl, ?_, ?_⟩
  · rw [List.length_map]
    exact recolorHSV_length img mask targetColors hlen
  · intro j hj hmask
    have hjr : j < (recolorHSV img mask targetColors).length := by
      rw [recolorHSV_length img mask targetColors hlen]; exact hj
    have hjo : j < ((recolorHSV img mask targetColors).map hsv2bgrPix).length := by
      simpa using hjr
    have hjmask : j < mask.length := by omega
    rw [List.getD_eq_getElem _ _ hjo, List.getElem_map]
    have hmask0 : mask[j] = 0 := by
      rw [List.getD_eq_getElem _ _ hjmask] at hmask; exact hmask
    have hq : (recolorHSV img mask targetColors)[j] =
        bgr2hsvPix (img[j]) := by
      rw [List.getElem_of_eq (recolorHSV_eq_zip img mask targetColors hlen) hjr]
      rw [List.getElem_zipWith]
      rw [if_neg (by omega : ¬ 0 < mask[j]), List.getElem_map]
    rw [hq, List.getD_eq_getElem _ _ hj]

/-- C3 amended witness: concrete image with one background pixel. -/
theorem claim_C3_background_roundtrip_witness :
    (apply_colors ⟨some [⟨255, 1, 0⟩], some [0], none, none⟩ ["#00ff00"]).1 = true ∧
    ∃ out, ((apply_colors ⟨some [⟨255, 1, 0⟩], some [0], none, none⟩
        ["#00ff00"]).2).recolored_image = some out ∧
      out.length = [(⟨255, 1, 0⟩ : BGR)].length ∧
      ∀ j, j < [(⟨255, 1, 0⟩ : BGR)].length → [0].getD j 0 = 0 →
        out.getD j ⟨0, 0, 0⟩ =
          hsv2bgrPix (bgr2hsvPix ([(⟨255, 1, 0⟩ : BGR)].getD j ⟨0, 0, 0⟩)) :=
  claim_C3_background_roundtrip _ ["#00ff00"] _ _ rfl rfl (by decide)

/-! Bounds on the binary32 helpers, leading to the range of the program's
bucket index. -/

theorem rne_le_of_le {a b K : ℕ} (hb : 0 < b) (h : a ≤ K * b) : rne a b ≤ K := by
  have hdm := Nat.div_add_mod a b
  have hqK : a / b ≤ K := by
    have := Nat.div_le_div_right (c := b) h
    rwa [Nat.mul_div_cancel _ hb] at this
  unfold rne
  split_ifs with h1 h2 h3
  · exact hqK
  · rcases Nat.lt_or_ge (a / b) K with hlt | hge
    · omega
    · have heq : a / b = K := le_antisymm hqK hge
      have hdm2 : K * b + a % b = a := by
        rw [Nat.mul_comm, ← heq]
        exact hdm
      omega
  · exact hqK
  · rcases Nat.lt_or_ge (a / b) K with hlt | hge
    · omega
    · have heq : a / b = K := le_antisymm hqK hge
      have hdm2 : K * b + a % b = a := by
        rw [Nat.mul_comm, ← heq]
        exact hdm
      omega

theorem rne_mul_self (b x : ℕ) (hb : 0 < b) : rne (b * x) b = x := by
  unfold rne
  rw [Nat.mul_div_cancel_left x hb, Nat.mul_mod_right]
  simp [hb]

theorem log2Aux_spec : ∀ (f n : ℕ), 1 ≤ n → n ≤ f →
    2 ^ log2Aux f n ≤ n ∧ n < 2 ^ (log2Aux f n + 1) := by
  intro f
  induction f with
  | zero => intro n h1 h2; omega
  | succ f ih =>
      intro n h1 h2
      simp only [log2Aux]
      split
      · rename_i h2n
        obtain ⟨hrl, hrh⟩ := ih (n / 2) (by omega) (by omega)
        rw [pow_succ, pow_succ]
        constructor
        · omega
        · have : n < 2 * (n / 2) + 2 := by omega
          calc n < (n / 2 + 1) * 2 := by omega
            _ ≤ 2 ^ (log2Aux f (n / 2) + 1) * 2 := by
                have : n / 2 + 1 ≤ 2 ^ (log2Aux f (n / 2) + 1) := hrh
                omega
      · rename_i h2n
        have hn1 : n = 1 := by omega
        subst hn1
        norm_num

theorem natLog2_spec {n : ℕ} (h : 1 ≤ n) :
    2 ^ natLog2 n ≤ n ∧ n < 2 ^ (natLog2 n + 1) :=
  log2Aux_spec n n h le_rfl

/-- For `1 ≤ p ≤ q` (and `q` small enough that the scaled logarithm is
meaningful), the rounded quotient is at most 1: it is `m · 2 ^ (-s)` with
`m ≤ 2 ^ s`. -/
theorem fl32Ratio_le_one {p q : ℕ} (hp : 1 ≤ p) (hpq : p ≤ q) (hq : q ≤ 2 ^ 60) :
    ∃ m s : ℕ, 23 ≤ s ∧ fl32Ratio p q = (m, -(s : ℤ)) ∧ m ≤ 2 ^ s := by
  have hq0 : 0 < q := by omega
  have hX1 : 1 ≤ p * 2 ^ 60 / q := by
    rw [Nat.one_le_div_iff hq0]
    calc q ≤ 2 ^ 60 := hq
      _ ≤ p * 2 ^ 60 := Nat.le_mul_of_pos_left _ (by omega)
  obtain ⟨hlo, hhi⟩ := natLog2_spec hX1
  have hX60 : p * 2 ^ 60 / q ≤ 2 ^ 60 := by
    have h1 : p * 2 ^ 60 ≤ q * 2 ^ 60 := Nat.mul_le_mul_right _ hpq
    have h2 : p * 2 ^ 60 / q ≤ q * 2 ^ 60 / q := Nat.div_le_div_right h1
    rwa [Nat.mul_div_cancel_left _ hq0] at h2
  have hLx60 : natLog2 (p * 2 ^ 60 / q) ≤ 60 := by
    have h2 : (2 : ℕ) ^ natLog2 (p * 2 ^ 60 / q) ≤ 2 ^ 60 := le_trans hlo hX60
    exact (Nat.pow_le_pow_iff_right (by omega)).mp h2
  set Lx := natLog2 (p * 2 ^ 60 / q) with hLxdef
  have hshval : ((23 : ℤ) - ((Lx : ℤ) - 60)) = ((83 - Lx : ℕ) : ℤ) := by
    have : ((83 - Lx : ℕ) : ℤ) = 83 - (Lx : ℤ) := by
      rw [Nat.cast_sub (by omega)]
      norm_num
    omega
  have hshnn : (0 : ℤ) ≤ (23 : ℤ) - ((Lx : ℤ) - 60) := by omega
  have hsnd : ((Lx : ℤ) - 60) - 23 = -((83 - Lx : ℕ) : ℤ) := by omega
  have hform : fl32Ratio p q = (rne (p * 2 ^ (83 - Lx)) q, -((83 - Lx : ℕ) : ℤ)) := by
    unfold fl32Ratio
    rw [if_neg (by omega : ¬ p = 0)]
    simp only [← hLxdef, if_pos hshnn]
    rw [hsnd]
    have htn : ((23 : ℤ) - ((Lx : ℤ) - 60)).toNat = 83 - Lx := by omega
    rw [htn]
  refine ⟨rne (p * 2 ^ (83 - Lx)) q, 83 - Lx, by omega, hform, ?_⟩
  rcases Nat.lt_or_ge p q with hlt | hge
  · have hXlt : p * 2 ^ 60 / q < 2 ^ 60 := by
      rw [Nat.div_lt_iff_lt_mul hq0]
      calc p * 2 ^ 60 < q * 2 ^ 60 :=
            (Nat.mul_lt_mul_right (by positivity)).mpr hlt
        _ = 2 ^ 60 * q := Nat.mul_comm _ _
    have hLx59 : Lx ≤ 59 := by
      by_contra hcon
      have h60 : Lx = 60 := by omega
      rw [h60] at hlo
      omega
    have hupper : p * 2 ^ 60 < q * 2 ^ (Lx + 1) := by
      have hmul := (Nat.div_lt_iff_lt_mul hq0).mp hhi
      calc p * 2 ^ 60 < 2 ^ (Lx + 1) * q := hmul
        _ = q * 2 ^ (Lx + 1) := Nat.mul_comm _ _
    have hkey : p * 2 ^ (83 - Lx) ≤ 2 ^ 24 * q := by
      have hsplit : p * 2 ^ (83 - Lx) * 2 ^ Lx = p * 2 ^ 60 * 2 ^ 23 := by
        rw [mul_assoc, mul_assoc, ← pow_add, ← pow_add]
        congr 2
        omega
      have hr : p * 2 ^ 60 * 2 ^ 23 < q * 2 ^ (Lx + 1) * 2 ^ 23 :=
        (Nat.mul_lt_mul_right (by positivity)).mpr hupper
      have hr2 : q * 2 ^ (Lx + 1) * 2 ^ 23 = 2 ^ 24 * q * 2 ^ Lx := by
        rw [mul_assoc, mul_comm (2 ^ 24) q, mul_assoc, ← pow_add, ← pow_add]
        congr 2
        omega
      have hfin : p * 2 ^ (83 - Lx) * 2 ^ Lx < 2 ^ 24 * q * 2 ^ Lx := by
        rw [hsplit]
        rw [hr2] at hr
        exact hr
      have := Nat.lt_of_mul_lt_mul_right hfin
      omega
    have h24 : rne (p * 2 ^ (83 - Lx)) q ≤ 2 ^ 24 :=
      rne_le_of_le hq0 hkey
    calc rne (p * 2 ^ (83 - Lx)) q ≤ 2 ^ 24 := h24
      _ ≤ 2 ^ (83 - Lx) := Nat.pow_le_pow_right (by omega) (by omega)
  · have hpq2 : p = q := le_antisymm hpq hge
    subst hpq2
    have hX : p * 2 ^ 60 / p = 2 ^ 60 := Nat.mul_div_cancel_left _ hq0
    have hLx : Lx = 60 := by
      rw [hLxdef, hX]
      have hs := natLog2_spec (n := 2 ^ 60) (by norm_num)
      rcases Nat.lt_trichotomy (natLog2 (2 ^ 60)) 60 with h | h | h
      · exfalso
        have : (2 : ℕ) ^ 60 < 2 ^ 60 := by
          calc (2 : ℕ) ^ 60 < 2 ^ (natLog2 (2 ^ 60) + 1) := hs.2
            _ ≤ 2 ^ 60 := Nat.pow_le_pow_right (by omega) (by omega)
        omega
      · exact h
      · exfalso
        have : (2 : ℕ) ^ 61 ≤ 2 ^ 60 := by
          calc (2 : ℕ) ^ 61 ≤ 2 ^ natLog2 (2 ^ 60) := Nat.pow_le_pow_right (by omega) (by omega)
            _ ≤ 2 ^ 60 := hs.1
        have := Nat.pow_le_pow_iff_right (a := 2) (by omega) |>.mp this
        omega
    rw [hLx]
    have h23 : (83 : ℕ) - 60 = 23 := by norm_num
    rw [h23]
    have : p * 2 ^ 23 = p * 2 ^ 23 := rfl
    calc rne (p * 2 ^ 23) p = 2 ^ 23 := rne_mul_self p (2 ^ 23) hq0
      _ ≤ 2 ^ 23 := le_refl _

/-- Multiplying a float of value at most 1 by an exactly representable
natural `c` and truncating yields at most `c`. -/
theorem truncFl_fl32MulNat_le {m s c : ℕ} (hs : 23 ≤ s) (hm : m ≤ 2 ^ s)
    (hc : c < 2 ^ 24) : truncFl (fl32MulNat (m, -(s : ℤ)) c) ≤ c := by
  by_cases hm0 : m = 0
  · subst hm0
    unfold fl32MulNat truncFl
    simp
  by_cases hc0 : c = 0
  · subst hc0
    unfold fl32MulNat truncFl
    simp
  have hx1 : 1 ≤ m * c := Nat.one_le_iff_ne_zero.mpr (mul_ne_zero hm0 hc0)
  obtain ⟨hLlo, hLhi⟩ := natLog2_spec hx1
  set L := natLog2 (m * c) with hLdef
  have hxle : m * c ≤ 2 ^ s * c := Nat.mul_le_mul_right _ hm
  have hxlt : m * c < 2 ^ (s + 24) := by
    calc m * c ≤ 2 ^ s * c := hxle
      _ < 2 ^ s * 2 ^ 24 := (Nat.mul_lt_mul_left (by positivity)).mpr hc
      _ = 2 ^ (s + 24) := by rw [← pow_add]
  have hLle : L ≤ s + 23 := by
    by_contra hcon
    have : (2 : ℕ) ^ (s + 24) ≤ 2 ^ L := Nat.pow_le_pow_right (by omega) (by omega)
    omega
  unfold fl32MulNat
  rw [if_neg (by push_neg; exact ⟨hm0, hc0⟩)]
  simp only [← hLdef]
  split
  · rename_i hL23
    unfold truncFl
    rw [if_neg (by omega : ¬ (0 : ℤ) ≤ -(s : ℤ))]
    have htn : (-(-(s : ℤ))).toNat = s := by omega
    simp only [htn]
    have h1 : m * c / 2 ^ s ≤ 2 ^ s * c / 2 ^ s := Nat.div_le_div_right hxle
    rwa [Nat.mul_div_cancel_left _ (by positivity)] at h1
  · rename_i hL23
    set k := s - (L - 23) with hkdef
    have hsnd : -(s : ℤ) + ((L - 23 : ℕ) : ℤ) = -(k : ℤ) := by
      have h1 : ((L - 23 : ℕ) : ℤ) = (L : ℤ) - 23 := by
        rw [Nat.cast_sub (by omega)]
        norm_num
      have h2 : ((k : ℕ) : ℤ) = (s : ℤ) - ((L : ℤ) - 23) := by
        rw [hkdef, Nat.cast_sub (by omega), Nat.cast_sub (by omega)]
        push_cast
        ring
      omega
    rw [hsnd]
    have hrneb : rne (m * c) (2 ^ (L - 23)) ≤ c * 2 ^ k :=
      rne_le_of_le (by positivity) (by
        calc m * c ≤ 2 ^ s * c := hxle
          _ = c * 2 ^ k * 2 ^ (L - 23) := by
              rw [mul_assoc, ← pow_add, mul_comm]
              congr 2
              omega)
    unfold truncFl
    by_cases hk0 : k = 0
    · rw [if_pos (by omega : (0 : ℤ) ≤ -(k : ℤ))]
      have htn : (-(k : ℤ)).toNat = 0 := by omega
      simp only [htn, pow_zero, mul_one]
      rw [hk0] at hrneb
      simpa using hrneb
    · rw [if_neg (by omega : ¬ (0 : ℤ) ≤ -(k : ℤ))]
      have htn : (-(-(k : ℤ))).toNat = k := by omega
      simp only [htn]
      have h1 : rne (m * c) (2 ^ (L - 23)) / 2 ^ k ≤ c * 2 ^ k / 2 ^ k :=
        Nat.div_le_div_right hrneb
      rwa [Nat.mul_div_cancel _ (by positivity)] at h1

/-- The program's bucket index is always in `[0, numColors)` for a foreground
pixel whose brightness lies in the observed span (uint8 data, palette below
the float32-exact integer range). -/
theorem f32BucketFn_range {mn mx n v : ℕ} (hn : 0 < n) (hmn : mn ≤ v)
    (hmx : v ≤ mx) (hub : mx ≤ 255) (hn24 : n ≤ 2 ^ 24) :
    0 ≤ f32BucketFn mn mx n v ∧ f32BucketFn mn mx n v < (n : ℤ) := by
  unfold f32BucketFn
  split
  · rename_i hlt
    rw [if_neg (by omega : ¬ n = 0)]
    refine ⟨by positivity, ?_⟩
    have hbound : truncFl (fl32MulNat (fl32Ratio (v - mn) (mx - mn)) (n - 1)) ≤ n - 1 := by
      by_cases hd0 : v - mn = 0
      · rw [hd0]
        unfold fl32Ratio fl32MulNat truncFl
        simp
      · obtain ⟨m, s, hs, hform, hmle⟩ := fl32Ratio_le_one
          (p := v - mn) (q := mx - mn) (by omega) (by omega)
          (by calc mx - mn ≤ 255 := by omega
                _ ≤ 2 ^ 60 := by norm_num)
        rw [hform]
        exact truncFl_fl32MulNat_le hs hmle (by omega)
    have : (truncFl (fl32MulNat (fl32Ratio (v - mn) (mx - mn)) (n - 1)) : ℤ) ≤
        ((n - 1 : ℕ) : ℤ) := by exact_mod_cast hbound
    have hcast : ((n - 1 : ℕ) : ℤ) = (n : ℤ) - 1 := by
      rw [Nat.cast_sub (by omega)]
      norm_num
    omega
  · exact ⟨le_refl 0, by exact_mod_cast hn⟩

/-- C2 counterexample: with foreground brightness values {0, 13, 22} and a
23-color palette, the program's float32 evaluation puts the middle pixel in
bucket 12 (`float32(13/22) * 22 = 12.99999905…`), while the claim's exact
formula `trunc(((13-0)/(22-0))*(23-1))` gives 13. -/
theorem claim_C2_counterexample :
    get_color_mapping [0, 13, 22] 23 = [0, 12, 22] ∧
    bucketFn 0 22 23 13 = 13 ∧ (12 : ℤ) ≠ 13 := by
  refine ⟨by decide, by decide, by decide⟩

/-- C2 amended: with at least one foreground pixel and a non-empty palette
(of at most `2 ^ 24` colors, within float32 integer exactness) on a uint8
image, the target colors are sorted ascending by HSV brightness (a
permutation of the converted palette), and each foreground pixel receives the
hue and saturation of the sorted color indexed by the float32 evaluation of
`(v - min_v) / (max_v - min_v) * (N - 1)` truncated to integer (index 0 when
`max_v = min_v`), where min and max range over foreground brightness only;
the float32 rounding can differ from the exact rational truncation. -/
theorem claim_C2_bucket_mapping
    (st : RecolorerState) (targetColors : List String) (img : List BGR)
    (mask : List ℕ) (hi : st.image = some img) (hm : st.mask = some mask)
    (hlen : img.length = mask.length) (hne : targetColors ≠ [])
    (hn24 : targetColors.length ≤ 2 ^ 24)
    (hvalid : ∀ p ∈ img, valueOf p ≤ 255) :
    List.Pairwise (fun a b => a.v ≤ b.v) (hex_colors_to_hsv targetColors) ∧
    (hex_colors_to_hsv targetColors).Perm
      (targetColors.map (fun c => bgr2hsvPix ((hex_to_bgr c).getD ⟨0, 0, 0⟩))) ∧
    ((apply_colors st targetColors).2).recolored_image =
      some ((recolorHSV img mask targetColors).map hsv2bgrPix) ∧
    ∀ j, j < img.length → 0 < mask.getD j 0 →
      ∃ t, (hex_colors_to_hsv targetColors).get?
          (f32BucketFn (listMin (maskedBrightness (img.map bgr2hsvPix) mask))
            (listMax (maskedBrightness (img.map bgr2hsvPix) mask))
            targetColors.length
            ((bgr2hsvPix (img.getD j ⟨0, 0, 0⟩)).v)).toNat = some t ∧
        (recolorHSV img mask targetColors).getD j ⟨0, 0, 0⟩ =
          ⟨t.h, t.s, (bgr2hsvPix (img.getD j ⟨0, 0, 0⟩)).v⟩ := by
  refine ⟨sortByV_pairwise _, sortByV_perm _, ?_, ?_⟩
  · rw [apply_colors_some hi hm targetColors]
  · intro j hj hmask
    have hjmask : j < mask.length := by omega
    have hjr : j < (recolorHSV img mask targetColors).length := by
      rw [recolorHSV_length img mask targetColors hlen]; exact hj
    have himg : img.getD j ⟨0, 0, 0⟩ = img[j] := List.getD_eq_getElem _ _ hj
    have hmaskj : 0 < mask[j] := by
      rw [List.getD_eq_getElem _ _ hjmask] at hmask; exact hmask
    have hNlen : (hex_colors_to_hsv targetColors).length = targetColors.length :=
      hex_colors_to_hsv_length _
    have hNpos : 0 < targetColors.length := List.length_pos.mpr hne
    have hvmem : (bgr2hsvPix img[j]).v ∈
        maskedBrightness (img.map bgr2hsvPix) mask := by
      have hmem := maskedBrightness_getD_mem (img.map bgr2hsvPix) mask j
        (by simpa using hj) hjmask hmask
      rwa [List.getD_eq_getElem _ _ (by simpa using hj), List.getElem_map] at hmem
    have hmn : listMin (maskedBrightness (img.map bgr2hsvPix) mask) ≤
        (bgr2hsvPix img[j]).v := listMin_le hvmem
    have hmx : (bgr2hsvPix img[j]).v ≤
        listMax (maskedBrightness (img.map bgr2hsvPix) mask) := le_listMax hvmem
    have hmaxle : listMax (maskedBrightness (img.map bgr2hsvPix) mask) ≤ 255 := by
      refine listMax_le ?_
      intro x hx
      obtain ⟨p, hp, rfl⟩ := maskedBrightness_mem_val hx
      obtain ⟨pix, hpix, rfl⟩ := List.mem_map.mp hp
      rw [bgr2hsv_v]
      exact hvalid pix hpix
    have hrange := f32BucketFn_range (v := (bgr2hsvPix img[j]).v) hNpos hmn hmx
      hmaxle hn24
    have hidx : (f32BucketFn (listMin (maskedBrightness (img.map bgr2hsvPix) mask))
        (listMax (maskedBrightness (img.map bgr2hsvPix) mask))
        targetColors.length ((bgr2hsvPix img[j]).v)).toNat <
        (hex_colors_to_hsv targetColors).length := by
      rw [hNlen]; omega
    obtain ⟨t, hget, happ⟩ := overwriteHS_apply (hex_colors_to_hsv targetColors)
      (bgr2hsvPix img[j]) hrange.1 hidx
    refine ⟨t, ?_, ?_⟩
    · rw [himg]
      exact hget
    · rw [List.getD_eq_getElem _ _ hjr,
        List.getElem_of_eq (recolorHSV_eq_zip img mask targetColors hlen) hjr,
        List.getElem_zipWith, List.getElem_map, if_pos hmaskj]
      simp only [himg, hNlen]
      exact happ

/-- C2 amended witness: two foreground pixels of distinct brightness, two
colors. -/
theorem claim_C2_bucket_mapping_witness :
    List.Pairwise (fun a b => a.v ≤ b.v) (hex_colors_to_hsv ["#102030", "#a0b0c0"]) ∧
    (hex_colors_to_hsv ["#102030", "#a0b0c0"]).Perm
      (["#102030", "#a0b0c0"].map (fun c => bgr2hsvPix ((hex_to_bgr c).getD ⟨0, 0, 0⟩))) ∧
    ((apply_colors ⟨some [⟨40, 40, 40⟩, ⟨250, 250, 250⟩], some [7, 9], none, none⟩
        ["#102030", "#a0b0c0"]).2).recolored_image =
      some ((recolorHSV [⟨40, 40, 40⟩, ⟨250, 250, 250⟩] [7, 9]
        ["#102030", "#a0b0c0"]).map hsv2bgrPix) ∧
    ∀ j, j < [(⟨40, 40, 40⟩ : BGR), ⟨250, 250, 250⟩].length → 0 < [7, 9].getD j 0 →
      ∃ t, (hex_colors_to_hsv ["#102030", "#a0b0c0"]).get?
          (f32BucketFn (listMin (maskedBrightness ([(⟨40, 40, 40⟩ : BGR), ⟨250, 250, 250⟩].map bgr2hsvPix) [7, 9]))
            (listMax (maskedBrightness ([(⟨40, 40, 40⟩ : BGR), ⟨250, 250, 250⟩].map bgr2hsvPix) [7, 9]))
            (["#102030", "#a0b0c0"] : List String).length
            ((bgr2hsvPix ([(⟨40, 40, 40⟩ : BGR), ⟨250, 250, 250⟩].getD j ⟨0, 0, 0⟩)).v)).toNat = some t ∧
        (recolorHSV [⟨40, 40, 40⟩, ⟨250, 250, 250⟩] [7, 9]
            ["#102030", "#a0b0c0"]).getD j ⟨0, 0, 0⟩ =
          ⟨t.h, t.s, (bgr2hsvPix ([(⟨40, 40, 40⟩ : BGR), ⟨250, 250, 250⟩].getD j ⟨0, 0, 0⟩)).v⟩ :=
  claim_C2_bucket_mapping _ ["#102030", "#a0b0c0"] _ _ rfl rfl (by decide)
    (by decide) (by decide) (by decide)

/-! Claim theorems for stage preconditions and the extractor. -/

/-- C6 counterexample: invoked before the image is loaded, the extractor's
reshape stage raises a `ValueError` instead of returning a failure value. -/
theorem claim_C6_counterexample :
    reshape_for_clustering initExtractor =
      .raised "Image not loaded. Call _preprocess_image() first." := rfl

/-- C6 amended: every recolorer stage invoked before its prerequisite returns
`False` and leaves the state (hence every downstream buffer) unchanged, but
the extractor's reshape stage instead raises a `ValueError` naming the
missing precondition. -/
theorem claim_C6_preconditions :
    (∀ seg st, st.image = none → remove_background seg st = (false, st)) ∧
    (∀ st targetColors, st.image = none ∨ st.mask = none →
      apply_colors st targetColors = (false, st)) ∧
    (∀ writeOk st, st.recolored_image = none → save_result writeOk st = false) ∧
    (∀ st, st.image_rgb = none →
      reshape_for_clustering st =
        .raised "Image not loaded. Call _preprocess_image() first.") := by
  refine ⟨?_, ?_, ?_, ?_⟩
  · intro seg st h
    unfold remove_background
    rw [h]
  · intro st targetColors h
    unfold apply_colors
    rcases h with h | h
    · rw [h]
    · rw [h]
      rcases hsi : st.image with _ | img <;> rfl
  · intro writeOk st h
    unfold save_result
    rw [h]
  · intro st h
    unfold reshape_for_clustering
    rw [h]

/-- C6 witness: the amended statement at the freshly initialized states. -/
theorem claim_C6_preconditions_witness :
    remove_background (fun _ => none) initRecolorer = (false, initRecolorer) ∧
    apply_colors initRecolorer ["#ff0000"] = (false, initRecolorer) ∧
    save_result true initRecolorer = false ∧
    reshape_for_clustering initExtractor =
      .raised "Image not loaded. Call _preprocess_image() first." :=
  ⟨claim_C6_preconditions.1 _ initRecolorer rfl,
   claim_C6_preconditions.2.1 initRecolorer _ (Or.inl rfl),
   claim_C6_preconditions.2.2.1 true initRecolorer rfl,
   claim_C6_preconditions.2.2.2 initExtractor rfl⟩

/-- C5: palette extraction is deterministic: the orchestration is a pure
function of the image and N (two runs agree), and the clustering stage always
passes the fixed seed 42 and the fixed 10 initialization restarts to the
clustering primitive. -/
theorem claim_C5_deterministic (alg : KMeansAlg)
    (loaded : Option (List (List Pix3))) (nColors : ℕ) :
    extract_dominant_colors alg loaded nColors =
      extract_dominant_colors alg loaded nColors ∧
    ∀ pixels, cluster_colors alg nColors pixels = alg nColors 42 10 pixels :=
  ⟨rfl, fun _ => rfl⟩

/-! Stability analysis of the faithful argsort model.  The introsort takes
its stable insertion-sort path exactly when the whole array (at most 16
elements) is below the quicksort threshold; the lemmas below reduce that path
to a functional insertion fold and prove the fold stable. -/

theorem getD_append_len (s : List ℕ) (c : ℕ) (d : List ℕ) :
    (s ++ c :: d).getD s.length 0 = c := by
  induction s with
  | nil => rfl
  | cons y ys ih => simpa using ih

theorem set_append_len (s : List ℕ) (c x : ℕ) (d : List ℕ) :
    (s ++ c :: d).set s.length x = s ++ x :: d := by
  induction s with
  | nil => rfl
  | cons y ys ih => simp [ih]

theorem insShift_spec (v : List ℤ) (x : ℕ) (vp : ℤ) :
    ∀ (fuel : ℕ) (s : List ℕ) (c : ℕ) (d : List ℕ), s.length ≤ fuel →
      insShift v 0 x vp fuel (s ++ c :: d) s.length =
        (insRevA v vp x s.reverse).reverse ++ d := by
  intro fuel
  induction fuel with
  | zero =>
      intro s c d hf
      have hs : s = [] := List.length_eq_zero.mp (by omega)
      subst hs
      simp [insShift, insRevA]
  | succ f ih =>
      intro s c d hf
      rcases List.eq_nil_or_concat s with rfl | ⟨s2, y, rfl⟩
      · simp [insShift, insRevA]
      · rw [List.concat_eq_append] at hf ⊢
        have hlen : (s2 ++ [y]).length = s2.length + 1 := by simp
        have hassoc : (s2 ++ [y]) ++ c :: d = s2 ++ (y :: c :: d) := by simp
        have hget : ((s2 ++ [y]) ++ c :: d).getD ((s2 ++ [y]).length - 1) 0 = y := by
          rw [hassoc, hlen]
          simpa using getD_append_len s2 y (c :: d)
        simp only [insShift, hlen, Nat.add_sub_cancel] at hget ⊢
        rw [hget]
        by_cases hc : vp < v.getD y 0
        · rw [if_pos ⟨Nat.succ_pos _, hc⟩]
          have hset : ((s2 ++ [y]) ++ c :: d).set (s2.length + 1) y = s2 ++ y :: y :: d := by
            have hone := set_append_len (s2 ++ [y]) c y d
            rw [hlen] at hone
            rw [hone]
            simp
          rw [hset, ih s2 y (y :: d) (by simpa using hf)]
          have hrev : (s2 ++ [y]).reverse = y :: s2.reverse := by simp
          rw [hrev]
          rw [show insRevA v vp x (y :: s2.reverse) = y :: insRevA v vp x s2.reverse from by
            simp only [insRevA]
            rw [if_pos hc]]
          rw [List.reverse_cons, List.append_assoc]
          rfl
        · rw [if_neg (fun hcon => hc hcon.2)]
          have hset : ((s2 ++ [y]) ++ c :: d).set (s2.length + 1) x = (s2 ++ [y]) ++ x :: d := by
            have hone := set_append_len (s2 ++ [y]) c x d
            rw [hlen] at hone
            exact hone
          rw [hset]
          have hrev : (s2 ++ [y]).reverse = y :: s2.reverse := by simp
          rw [hrev]
          rw [show insRevA v vp x (y :: s2.reverse) = x :: y :: s2.reverse from by
            simp only [insRevA]
            rw [if_neg hc]]
          simp

theorem insRevA_length (v : List ℤ) (vp : ℤ) (x : ℕ) :
    ∀ q : List ℕ, (insRevA v vp x q).length = q.length + 1 := by
  intro q
  induction q with
  | nil => rfl
  | cons y ys ih =>
      simp only [insRevA]
      split
      · simpa using ih
      · simp

theorem insSortLoop_spec (v : List ℤ) (pr : ℕ) :
    ∀ (rest p : List ℕ) (fuel : ℕ), rest.length ≤ fuel →
      p.length + rest.length = pr + 1 →
      insSortLoop v 0 pr fuel (p ++ rest) p.length =
        rest.foldl (fun acc x => (insRevA v (v.getD x 0) x acc.reverse).reverse) p := by
  intro rest
  induction rest with
  | nil =>
      intro p fuel hf hlen
      cases fuel with
      | zero => simp [insSortLoop]
      | succ f =>
          simp only [insSortLoop]
          rw [if_neg (show ¬ p.length ≤ pr by simp at hlen; omega)]
          simp
  | cons x rest2 ih =>
      intro p fuel hf hlen
      cases fuel with
      | zero => simp at hf
      | succ f =>
          simp only [insSortLoop, List.foldl_cons]
          rw [if_pos (show p.length ≤ pr by simp at hlen; omega)]
          rw [getD_append_len]
          rw [insShift_spec v x (v.getD x 0) p.length p x rest2 le_rfl]
          have hlen2 : ((insRevA v (v.getD x 0) x p.reverse).reverse).length = p.length + 1 := by
            rw [List.length_reverse, insRevA_length v (v.getD x 0) x p.reverse,
              List.length_reverse]
          rw [← hlen2]
          refine ih _ f ?_ ?_
          · simp only [List.length_cons] at hf
            omega
          · rw [hlen2]
            simp only [List.length_cons] at hlen
            omega

set_option maxHeartbeats 1600000 in
theorem npyAquicksort_small {v : List ℤ} (h : v.length ≤ 16) :
    npyAquicksort v =
      insSortLoop v 0 (v.length - 1) (v.length - 1) (List.range v.length) 1 := by
  unfold npyAquicksort
  have h8 : 2 * v.length + 8 = (2 * v.length + 7) + 1 := rfl
  rw [h8]
  rw [aqsortLoop]
  rw [if_neg (show ¬ 15 < v.length - 1 - 0 by omega)]
  rfl

theorem mem_insRevA {v : List ℤ} {vp : ℤ} {x z : ℕ} :
    ∀ {q : List ℕ}, z ∈ insRevA v vp x q → z = x ∨ z ∈ q := by
  intro q
  induction q with
  | nil =>
      intro h
      simp only [insRevA, List.mem_singleton] at h
      exact Or.inl h
  | cons y ys ih =>
      intro h
      simp only [insRevA] at h
      split at h
      · rcases List.mem_cons.mp h with rfl | h2
        · exact Or.inr (List.mem_cons_self _ _)
        · rcases ih h2 with rfl | h3
          · exact Or.inl rfl
          · exact Or.inr (List.mem_cons_of_mem _ h3)
      · rcases List.mem_cons.mp h with rfl | h2
        · exact Or.inl rfl
        · exact Or.inr h2

theorem insRevA_pairwise {v : List ℤ} {x : ℕ} :
    ∀ {q : List ℕ}, q.Pairwise (fun a b => argLt v b a) → (∀ y ∈ q, y < x) →
      (insRevA v (v.getD x 0) x q).Pairwise (fun a b => argLt v b a) := by
  intro q
  induction q with
  | nil => intro _ _; simp [insRevA]
  | cons y ys ih =>
      intro hp hlt
      rcases List.pairwise_cons.mp hp with ⟨hy, hys⟩
      simp only [insRevA]
      split
      · rename_i hcond
        refine List.pairwise_cons.mpr
          ⟨?_, ih hys (fun z hz => hlt z (List.mem_cons_of_mem _ hz))⟩
        intro z hz
        rcases mem_insRevA hz with rfl | hz2
        · exact Or.inl hcond
        · exact hy z hz2
      · rename_i hcond
        refine List.pairwise_cons.mpr ⟨?_, hp⟩
        intro z hz
        have hyx : y < x := hlt y (List.mem_cons_self _ _)
        rcases List.mem_cons.mp hz with rfl | hz2
        · unfold argLt
          omega
        · have h1 := hy z hz2
          unfold argLt at h1 ⊢
          omega

theorem argInsFold_pairwise (v : List ℤ) :
    ∀ (rest p : List ℕ), p.Pairwise (argLt v) →
      (∀ y ∈ p, ∀ x ∈ rest, y < x) → rest.Pairwise (· < ·) →
      (rest.foldl (fun acc x => (insRevA v (v.getD x 0) x acc.reverse).reverse)
        p).Pairwise (argLt v) := by
  intro rest
  induction rest with
  | nil => intro p hp _ _; simpa using hp
  | cons x rest2 ih =>
      intro p hp hlt hr
      rcases List.pairwise_cons.mp hr with ⟨hxr, hr2⟩
      simp only [List.foldl_cons]
      refine ih _ ?_ ?_ hr2
      · rw [List.pairwise_reverse]
        refine insRevA_pairwise ?_ ?_
        · rw [List.pairwise_reverse]
          exact hp
        · intro y hy
          exact hlt y (List.mem_reverse.mp hy) x (List.mem_cons_self _ _)
      · intro y hy x2 hx2
        rcases mem_insRevA (List.mem_reverse.mp hy) with rfl | h3
        · exact hxr x2 hx2
        · exact hlt y (List.mem_reverse.mp h3) x2 (List.mem_cons_of_mem _ hx2)

theorem argInsFold_mem (v : List ℤ) :
    ∀ (rest p : List ℕ) (z : ℕ),
      z ∈ rest.foldl (fun acc x => (insRevA v (v.getD x 0) x acc.reverse).reverse) p →
      z ∈ p ∨ z ∈ rest := by
  intro rest
  induction rest with
  | nil => intro p z h; exact Or.inl (by simpa using h)
  | cons x rest2 ih =>
      intro p z h
      simp only [List.foldl_cons] at h
      rcases ih _ z h with h2 | h2
      · rcases mem_insRevA (List.mem_reverse.mp h2) with rfl | h3
        · exact Or.inr (List.mem_cons_self _ _)
        · exact Or.inl (List.mem_reverse.mp h3)
      · exact Or.inr (List.mem_cons_of_mem _ h2)

theorem npyAquicksort_pairwise_small {v : List ℤ} (h : v.length ≤ 16) :
    (npyAquicksort v).Pairwise (argLt v) ∧ ∀ z ∈ npyAquicksort v, z < v.length := by
  rcases Nat.eq_zero_or_pos v.length with hn | hn
  · have hv0 : v = [] := List.length_eq_zero.mp hn
    subst hv0
    have hq : npyAquicksort ([] : List ℤ) = [] := rfl
    rw [hq]
    exact ⟨List.Pairwise.nil, fun z hz => absurd hz (List.not_mem_nil z)⟩
  · obtain ⟨m, hm⟩ : ∃ m, v.length = m + 1 := ⟨v.length - 1, by omega⟩
    have hrange : List.range v.length = [0] ++ (List.range m).map Nat.succ := by
      rw [hm, List.range_succ_eq_map]
      rfl
    have hspec := insSortLoop_spec v (v.length - 1) ((List.range m).map Nat.succ) [0]
      (v.length - 1) (by simp [hm]) (by simp [hm]; omega)
    rw [show ([0] : List ℕ).length = 1 from rfl] at hspec
    have hfold : npyAquicksort v = ((List.range m).map Nat.succ).foldl
        (fun acc x => (insRevA v (v.getD x 0) x acc.reverse).reverse) [0] := by
      rw [npyAquicksort_small h, hrange, ← hspec]
    constructor
    · rw [hfold]
      refine argInsFold_pairwise v _ [0] (by simp) ?_ ?_
      · intro y hy x hx
        simp only [List.mem_singleton] at hy
        subst hy
        rcases List.mem_map.mp hx with ⟨w, _, rfl⟩
        omega
      · exact List.pairwise_map.mpr
          ((List.pairwise_lt_range m).imp (fun hab => Nat.succ_lt_succ hab))
    · intro z hz
      rw [hfold] at hz
      rcases argInsFold_mem v _ [0] z hz with h2 | h2
      · simp only [List.mem_singleton] at h2
        omega
      · rcases List.mem_map.mp h2 with ⟨w, hw, rfl⟩
        have := List.mem_range.mp hw
        omega

set_option maxRecDepth 8000 in
/-- C7 counterexample: 20 clusters of one pixel each (labels 0 to 19).  All
counts tie, but numpy's argsort takes its quicksort path above 16 elements and
emits the labels in the order 0, 17, 16, ..., 1, 18, 19 — not ascending — so
the claimed stable ascending-label tie-break fails on this input. -/
theorem claim_C7_counterexample :
    sortedClusterPairs (List.range 20) =
      [(0, 1), (17, 1), (16, 1), (15, 1), (14, 1), (13, 1), (12, 1), (11, 1),
       (10, 1), (9, 1), (8, 1), (7, 1), (6, 1), (5, 1), (4, 1), (3, 1), (2, 1),
       (1, 1), (18, 1), (19, 1)] ∧
    ¬ (sortedClusterPairs (List.range 20)).Pairwise
        (fun a b => a.2 = b.2 → a.1 < b.1) :=
  ⟨by decide, by decide⟩

/-- C7 amended: the extractor sorts clusters with `np.argsort(-counts)`,
numpy's introsort, which is stable exactly on the insertion-sort path it
takes for arrays of at most 16 elements; so whenever at most 16 distinct
clusters are sorted (the API caps the request at 10), clusters with equal
pixel counts appear in ascending cluster-label (creation) order.  With 17 or
more clusters the quicksort path can reorder ties (see the
counterexample). -/
theorem claim_C7_tie_break (labels : List ℕ)
    (h16 : (uniqueWithCounts labels).length ≤ 16) :
    (sortedClusterPairs labels).Pairwise (fun a b => a.2 = b.2 → a.1 < b.1) := by
  have hlab := uniqueWithCounts_label_sorted labels
  have hv16 : (((uniqueWithCounts labels).map (fun p => p.2)).map
      (fun (c : ℕ) => -(c : ℤ))).length ≤ 16 := by
    rw [List.length_map, List.length_map]
    exact h16
  obtain ⟨hpw, hmem⟩ := npyAquicksort_pairwise_small hv16
  unfold sortedClusterPairs argsortNegCounts
  refine List.pairwise_map.mpr ?_
  refine hpw.imp_of_mem ?_
  intro a b ha hb hab heq
  have haU : a < (uniqueWithCounts labels).length := by simpa using hmem a ha
  have hbU : b < (uniqueWithCounts labels).length := by simpa using hmem b hb
  have hgA : (uniqueWithCounts labels).getD a (0, 0) = (uniqueWithCounts labels)[a] :=
    List.getD_eq_getElem _ _ haU
  have hgB : (uniqueWithCounts labels).getD b (0, 0) = (uniqueWithCounts labels)[b] :=
    List.getD_eq_getElem _ _ hbU
  rw [hgA, hgB] at heq ⊢
  have hkey : ∀ (i : ℕ) (hi : i < (uniqueWithCounts labels).length),
      (((uniqueWithCounts labels).map (fun p => p.2)).map (fun (c : ℕ) => -(c : ℤ))).getD i 0 =
        -(((uniqueWithCounts labels)[i].2 : ℤ)) := by
    intro i hi
    rw [List.getD_eq_getElem _ _ (by simpa using hi)]
    simp
  unfold argLt at hab
  rw [hkey a haU, hkey b hbU] at hab
  have hcnt : (((uniqueWithCounts labels)[a].2 : ℕ) : ℤ) =
      (((uniqueWithCounts labels)[b].2 : ℕ) : ℤ) := by
    exact_mod_cast heq
  have hab2 : a < b := by omega
  exact List.pairwise_iff_getElem.mp hlab a b haU hbU hab2

/-- C7 amended witness: five pixels in three clusters with counts 2, 2, 1 — a
tie between clusters 3 and 5 resolved in ascending label order. -/
theorem claim_C7_tie_break_witness :
    (uniqueWithCounts [3, 3, 5, 5, 7]).length ≤ 16 ∧
    (sortedClusterPairs [3, 3, 5, 5, 7]).Pairwise
      (fun a b => a.2 = b.2 → a.1 < b.1) :=
  ⟨by decide, claim_C7_tie_break [3, 3, 5, 5, 7] (by decide)⟩

/-! Machinery for C4: the shape of the extractor output. -/

theorem toHexChar_mem_lowerHex : ∀ k : ℕ, k < 16 →
    lowerHexChars.contains (toHexChar k) = true := by decide

theorem isHexOutput_rgb_to_hex {r g b : ℕ} (hr : r ≤ 255) (hg : g ≤ 255)
    (hb : b ≤ 255) : isHexOutput (rgb_to_hex r g b) = true := by
  have hdata : (rgb_to_hex r g b).data =
      ['#', toHexChar (r / 16), toHexChar (r % 16), toHexChar (g / 16),
       toHexChar (g % 16), toHexChar (b / 16), toHexChar (b % 16)] := rfl
  unfold isHexOutput
  rw [hdata]
  simp only [Bool.and_eq_true, beq_iff_eq, List.all_eq_true, List.headD_cons,
    List.length_cons, List.length_nil, List.drop_succ_cons, List.drop_zero]
  refine ⟨by simp, ?_⟩
  intro c hc
  simp only [List.mem_cons, List.not_mem_nil, or_false] at hc
  rcases hc with rfl | rfl | rfl | rfl | rfl | rfl <;>
    exact toHexChar_mem_lowerHex _ (by omega)

theorem le_maxLabel : ∀ (l : List ℕ) (x : ℕ), x ∈ l → x ≤ maxLabel l := by
  intro l
  induction l with
  | nil => intro x hx; cases hx
  | cons y ys ih =>
      intro x hx
      rcases List.mem_cons.mp hx with rfl | hx
      · exact le_max_left _ _
      · exact le_trans (ih x hx) (le_max_right _ _)

theorem maxLabel_lt {l : List ℕ} {n : ℕ} (hn : 0 < n)
    (h : ∀ x ∈ l, x < n) : maxLabel l < n := by
  induction l with
  | nil => simpa [maxLabel] using hn
  | cons y ys ih =>
      have hy := h y (List.mem_cons_self y ys)
      have hys := ih (fun x hx => h x (List.mem_cons_of_mem y hx))
      simp only [maxLabel, List.foldr_cons] at hys ⊢
      omega

theorem uniqueLabels_eq_range {labels : List ℕ} {n : ℕ} (hn : 1 ≤ n)
    (hub : ∀ l ∈ labels, l < n) (hall : ∀ l, l < n → l ∈ labels) :
    uniqueLabels labels = List.range n := by
  have hlt : maxLabel labels < n := maxLabel_lt (by omega) hub
  have hge : n - 1 ≤ maxLabel labels := le_maxLabel _ _ (hall (n - 1) (by omega))
  have hmax : maxLabel labels + 1 = n := by omega
  unfold uniqueLabels
  rw [hmax]
  refine List.filter_eq_self.mpr ?_
  intro a ha
  exact decide_eq_true (hall a (List.mem_range.mp ha))

theorem uniqueWithCounts_length {labels : List ℕ} {n : ℕ} (hn : 1 ≤ n)
    (hub : ∀ l ∈ labels, l < n) (hall : ∀ l, l < n → l ∈ labels) :
    (uniqueWithCounts labels).length = n := by
  unfold uniqueWithCounts
  rw [List.length_map, uniqueLabels_eq_range hn hub hall, List.length_range]

theorem mem_uniqueWithCounts_lt {labels : List ℕ} {n : ℕ}
    (hub : ∀ l ∈ labels, l < n) {pr : ℕ × ℕ}
    (h : pr ∈ uniqueWithCounts labels) : pr.1 < n := by
  unfold uniqueWithCounts uniqueLabels at h
  rcases List.mem_map.mp h with ⟨l, hl, rfl⟩
  rcases List.mem_filter.mp hl with ⟨_, hmem⟩
  exact hub l (of_decide_eq_true hmem)

/-- The converted (BGR→RGB), flattened pixel list the extractor clusters. -/
def convertedPixels (rows : List (List Pix3)) : List Pix3 :=
  (rows.map (fun row => row.map (fun p => (p.2.2, p.2.1, p.1)))).flatten

theorem extract_some (alg : KMeansAlg) (rows : List (List Pix3)) (n : ℕ) :
    extract_dominant_colors alg (some rows) n =
      (some (sort_by_frequency (cluster_colors alg n (convertedPixels rows))).1,
       ⟨some rows, some (rows.map (fun row => row.map (fun p => (p.2.2, p.2.1, p.1)))),
        some (sort_by_frequency (cluster_colors alg n (convertedPixels rows))).1,
        some (sort_by_frequency (cluster_colors alg n (convertedPixels rows))).2⟩) := rfl

/-- C4: for a valid image and `1 ≤ n` (with the sklearn guarantees on the
external clustering: labels range over exactly the `n` clusters, one centroid
per cluster, centroid channels within `[0, 255]`), extraction returns exactly
`n` hex strings, each matching `#[0-9a-f]{6}`, ordered by non-increasing
cluster pixel count. -/
theorem claim_C4_extract_shape (alg : KMeansAlg) (rows : List (List Pix3))
    (n : ℕ) (hn : 1 ≤ n)
    (hub : ∀ l ∈ (cluster_colors alg n (convertedPixels rows)).labels, l < n)
    (hall : ∀ l, l < n → l ∈ (cluster_colors alg n (convertedPixels rows)).labels)
    (hcl : (cluster_colors alg n (convertedPixels rows)).centers.length = n)
    (hcen : ∀ c ∈ (cluster_colors alg n (convertedPixels rows)).centers,
      0 ≤ c.1 ∧ c.1 ≤ 255 ∧ 0 ≤ c.2.1 ∧ c.2.1 ≤ 255 ∧ 0 ≤ c.2.2 ∧ c.2.2 ≤ 255) :
    (extract_dominant_colors alg (some rows) n).1 =
      some (sort_by_frequency (cluster_colors alg n (convertedPixels rows))).1 ∧
    (sort_by_frequency (cluster_colors alg n (convertedPixels rows))).1.length = n ∧
    (∀ s ∈ (sort_by_frequency (cluster_colors alg n (convertedPixels rows))).1,
      isHexOutput s = true) ∧
    (sort_by_frequency (cluster_colors alg n (convertedPixels rows))).2.length = n ∧
    (sort_by_frequency (cluster_colors alg n (convertedPixels rows))).2.Pairwise
      (fun a b => b ≤ a) := by
  have hplen : (sortDescByCount (uniqueWithCounts
      (cluster_colors alg n (convertedPixels rows)).labels)).length = n := by
    rw [(sortDescByCount_perm _).length_eq]
    exact uniqueWithCounts_length hn hub hall
  refine ⟨by rw [extract_some], ?_, ?_, ?_, ?_⟩
  · unfold sort_by_frequency
    simp only [List.length_map]
    exact hplen
  · intro s hs
    unfold sort_by_frequency at hs
    simp only [List.map_map, List.mem_map] at hs
    rcases hs with ⟨pr, hpr, rfl⟩
    have hprmem : pr ∈ uniqueWithCounts
        (cluster_colors alg n (convertedPixels rows)).labels :=
      (sortDescByCount_perm _).mem_iff.mp hpr
    have hlt : pr.1 < n := mem_uniqueWithCounts_lt hub hprmem
    have hltc : pr.1 < (cluster_colors alg n (convertedPixels rows)).centers.length := by
      omega
    have hgetd : (cluster_colors alg n (convertedPixels rows)).centers.getD pr.1 (0, 0, 0) =
        (cluster_colors alg n (convertedPixels rows)).centers[pr.1] :=
      List.getD_eq_getElem _ _ hltc
    have hcmem := hcen _ (List.getElem_mem hltc)
    simp only [Function.comp_apply, hgetd]
    exact isHexOutput_rgb_to_hex (by omega) (by omega) (by omega)
  · unfold sort_by_frequency
    simp only [List.length_map]
    exact hplen
  · unfold sort_by_frequency
    simp only []
    refine List.Pairwise.map _ ?_
      (sortDescByCount_pairwise (uniqueWithCounts_label_sorted _))
    intro a b hab
    rcases hab with h1 | h2
    · omega
    · omega

/-- C4 witness: a fixed two-cluster clustering outcome on a one-pixel image. -/
theorem claim_C4_extract_shape_witness :
    (extract_dominant_colors (fun _ _ _ _ => ⟨[0, 1, 1], [(0, 128, 255), (10, 20, 30)]⟩)
        (some [[(1, 2, 3)]]) 2).1 =
      some (sort_by_frequency (cluster_colors
        (fun _ _ _ _ => ⟨[0, 1, 1], [(0, 128, 255), (10, 20, 30)]⟩) 2
        (convertedPixels [[(1, 2, 3)]]))).1 ∧
    (sort_by_frequency (cluster_colors
        (fun _ _ _ _ => ⟨[0, 1, 1], [(0, 128, 255), (10, 20, 30)]⟩) 2
        (convertedPixels [[(1, 2, 3)]]))).1.length = 2 ∧
    (∀ s ∈ (sort_by_frequency (cluster_colors
        (fun _ _ _ _ => ⟨[0, 1, 1], [(0, 128, 255), (10, 20, 30)]⟩) 2
        (convertedPixels [[(1, 2, 3)]]))).1, isHexOutput s = true) ∧
    (sort_by_frequency (cluster_colors
        (fun _ _ _ _ => ⟨[0, 1, 1], [(0, 128, 255), (10, 20, 30)]⟩) 2
        (convertedPixels [[(1, 2, 3)]]))).2.length = 2 ∧
    (sort_by_frequency (cluster_colors
        (fun _ _ _ _ => ⟨[0, 1, 1], [(0, 128, 255), (10, 20, 30)]⟩) 2
        (convertedPixels [[(1, 2, 3)]]))).2.Pairwise (fun a b => b ≤ a) :=
  claim_C4_extract_shape _ [[(1, 2, 3)]] 2 (by decide) (by decide) (by decide)
    (by decide) (by decide)

/-! Machinery for C8: the hex round trip. -/

theorem hexLookup_mem : ∀ (l : List (Char × ℕ)) (c : Char) (k : ℕ),
    hexLookup l c = some k → (c, k) ∈ l := by
  intro l
  induction l with
  | nil => intro c k h; cases h
  | cons p rest ih =>
      intro c k h
      rcases p with ⟨a, m⟩
      simp only [hexLookup] at h
      split at h
      · rename_i hc
        injection h with h2
        subst hc
        subst h2
        exact List.mem_cons_self _ _
      · exact List.mem_cons_of_mem _ (ih c k h)

theorem hexDigits_spec : ∀ p ∈ hexDigits,
    p.2 ≤ 15 ∧ toHexChar p.2 = p.1.toLower ∧ p.1 ≠ '#' := by decide

theorem hexDigitVal_spec {c : Char} {k : ℕ} (h : hexDigitVal c = some k) :
    k ≤ 15 ∧ toHexChar k = c.toLower ∧ c ≠ '#' := by
  have hm := hexLookup_mem hexDigits c k h
  simpa using hexDigits_spec (c, k) hm

theorem hexPairVal_spec {c1 c2 : Char} {k : ℕ} (h : hexPairVal c1 c2 = some k) :
    k ≤ 255 ∧ hexByte k = [c1.toLower, c2.toLower] := by
  unfold hexPairVal at h
  rcases h1 : hexDigitVal c1 with _ | x
  · rw [h1] at h; simp at h
  · rw [h1] at h
    rcases h2 : hexDigitVal c2 with _ | y
    · rw [h2] at h; simp at h
    · rw [h2] at h
      simp only [Option.bind_eq_bind, Option.some_bind, Option.some.injEq,
        pure] at h
      obtain ⟨hx15, hxc, _⟩ := hexDigitVal_spec h1
      obtain ⟨hy15, hyc, _⟩ := hexDigitVal_spec h2
      subst h
      refine ⟨by omega, ?_⟩
      unfold hexByte
      rw [show (16 * x + y) / 16 = x from by omega,
        show (16 * x + y) % 16 = y from by omega, hxc, hyc]

/-- C8: converting a valid `#RRGGBB` string (either case) to a BGR triple and
rendering the triple back as an RGB hex string reproduces the input up to
lowercasing. -/
theorem claim_C8_hex_roundtrip (str : String) (h : isHexInput str = true) :
    ∃ p : BGR, hex_to_bgr str = some p ∧
      rgb_to_hex p.r p.g p.b = strToLower str := by
  unfold isHexInput at h
  simp only [Bool.and_eq_true, beq_iff_eq, List.all_eq_true] at h
  obtain ⟨⟨hlen, hhead⟩, hall⟩ := h
  rcases hd : str.data with _ | ⟨c0, _ | ⟨c1, _ | ⟨c2, _ | ⟨c3, _ | ⟨c4, _ | ⟨c5, _ | ⟨c6, rest⟩⟩⟩⟩⟩⟩⟩ <;>
    rw [hd] at hlen hhead hall <;> simp only [List.length_cons, List.length_nil] at hlen
  · omega
  · omega
  · omega
  · omega
  · omega
  · omega
  · omega
  have hrest : rest = [] := by
    have : rest.length = 0 := by omega
    exact List.length_eq_zero.mp this
  subst hrest
  have hc0 : c0 = '#' := by simpa using hhead
  subst hc0
  simp only [List.drop_succ_cons, List.drop_zero] at hall
  have h1 := hall c1 (by simp)
  have h2 := hall c2 (by simp)
  have h3 := hall c3 (by simp)
  have h4 := hall c4 (by simp)
  have h5 := hall c5 (by simp)
  have h6 := hall c6 (by simp)
  rcases Option.isSome_iff_exists.mp h1 with ⟨x1, hx1⟩
  rcases Option.isSome_iff_exists.mp h2 with ⟨x2, hx2⟩
  rcases Option.isSome_iff_exists.mp h3 with ⟨x3, hx3⟩
  rcases Option.isSome_iff_exists.mp h4 with ⟨x4, hx4⟩
  rcases Option.isSome_iff_exists.mp h5 with ⟨x5, hx5⟩
  rcases Option.isSome_iff_exists.mp h6 with ⟨x6, hx6⟩
  have hp12 : hexPairVal c1 c2 = some (16 * x1 + x2) := by
    unfold hexPairVal; rw [hx1, hx2]; rfl
  have hp34 : hexPairVal c3 c4 = some (16 * x3 + x4) := by
    unfold hexPairVal; rw [hx3, hx4]; rfl
  have hp56 : hexPairVal c5 c6 = some (16 * x5 + x6) := by
    unfold hexPairVal; rw [hx5, hx6]; rfl
  have hc1ne : ¬(c1 = '#') := (hexDigitVal_spec hx1).2.2
  have hbgr : hex_to_bgr str =
      some ⟨16 * x5 + x6, 16 * x3 + x4, 16 * x1 + x2⟩ := by
    unfold hex_to_bgr
    rw [hd]
    rw [List.dropWhile_cons_of_pos (by simp), List.dropWhile_cons_of_neg (by simpa using hc1ne)]
    simp only [Option.bind_eq_bind, hp12, hp34, hp56, Option.some_bind]
    rfl
  refine ⟨⟨16 * x5 + x6, 16 * x3 + x4, 16 * x1 + x2⟩, hbgr, ?_⟩
  obtain ⟨-, hb12⟩ := hexPairVal_spec hp12
  obtain ⟨-, hb34⟩ := hexPairVal_spec hp34
  obtain ⟨-, hb56⟩ := hexPairVal_spec hp56
  unfold rgb_to_hex strToLower
  rw [hd]
  rw [hb12, hb34, hb56]
  simp only [List.map_cons, List.map_nil, List.cons_append, List.nil_append]
  rfl

/-- C8 witness: the concrete uppercase string `#FF5733`. -/
theorem claim_C8_hex_roundtrip_witness :
    ∃ p : BGR, hex_to_bgr "#FF5733" = some p ∧
      rgb_to_hex p.r p.g p.b = strToLower "#FF5733" :=
  claim_C8_hex_roundtrip "#FF5733" (by decide)

end ChromaKnit
